import Mathlib

set_option maxRecDepth 6000

/-!
# Verification of the ebookmaker text-segmentation and structural-analysis engine

Shallow embedding of `src/lib/analyzer` (chunking, heading classification,
preprocessing, chapter splitting, readability scoring, TOC extraction) and of
`mergeChunkResults` from the analysis module, together with proofs settling
the frozen claims C1..C10.

Modelling conventions:
* A JavaScript string is modelled as `List Char`; `s.length` is the list
  length (exact for the BMP code points used throughout this code base).
* JavaScript regular expressions are translated into explicit scanners whose
  greedy/backtracking behaviour is reproduced case by case; each scanner is
  documented next to the regex it embeds.
* `Math.floor(n * 0.7)` is modelled as `7 * n / 10` and
  `Math.ceil(500 / 80)` as exact ceiling division (`500 / 80 = 6.25` is exact
  in binary floating point, and the boundary analysis for the comparisons
  `x > 0.3 * n` and `x > 150` shows the float comparison agrees with the
  exact rational one at every integer input reachable here).
* JavaScript `NaN > c` is `false`; the average-line-length test
  `sum / count > 150` is therefore embedded as `150 * count < sum`, which
  also yields `false` when `count = 0`.
-/

namespace Ebookmaker

/-- Convert a Lean string literal to the `List Char` model of a JS string. -/
def str (s : String) : List Char := s.data

/-- The whitespace class of JavaScript (`\s`, `String.prototype.trim`):
space, tab, LF, VT, FF, CR, NBSP and the common Unicode space separators. -/
def jsIsSpace (c : Char) : Bool :=
  c.val == 0x20 || c.val == 0x09 || c.val == 0x0A || c.val == 0x0B ||
  c.val == 0x0C || c.val == 0x0D || c.val == 0xA0 || c.val == 0x1680 ||
  (0x2000 ≤ c.val && c.val ≤ 0x200A) || c.val == 0x2028 || c.val == 0x2029 ||
  c.val == 0x202F || c.val == 0x205F || c.val == 0x3000 || c.val == 0xFEFF

/-- `s.trim()`. -/
def jsTrim (l : List Char) : List Char :=
  ((l.dropWhile jsIsSpace).reverse.dropWhile jsIsSpace).reverse

/-- `'0' ≤ c ≤ '9'` (`\d`). -/
def jsIsDigit (c : Char) : Bool := '0' ≤ c && c ≤ '9'

/-- Hangul syllable range `가-힣` used by the source's character classes. -/
def isHangul (c : Char) : Bool := '가' ≤ c && c ≤ '힣'

/-- `content.split('\n')`: split at every LF, keeping empty pieces; the
result is never empty. -/
def splitLines (l : List Char) : List (List Char) :=
  match l with
  | [] => [[]]
  | c :: t =>
    if c = '\n' then [] :: splitLines t
    else
      match splitLines t with
      | [] => [[c]]
      | p :: rest => (c :: p) :: rest

/-- `lines.join('\n')`. -/
def joinLines (ls : List (List Char)) : List Char :=
  match ls with
  | [] => []
  | [l] => l
  | l :: rest => l ++ '\n' :: joinLines rest

theorem splitLines_ne_nil (l : List Char) : splitLines l ≠ [] := by
  match l with
  | [] => simp [splitLines]
  | c :: t =>
    simp only [splitLines]
    split
    · simp
    · have := splitLines_ne_nil t
      cases h : splitLines t with
      | nil => simp
      | cons p rest => simp

theorem mem_splitLines_no_newline (l : List Char) :
    ∀ p ∈ splitLines l, '\n' ∉ p := by
  induction l with
  | nil => intro p hp; simp [splitLines] at hp; simp [hp]
  | cons c t ih =>
    intro p hp
    simp only [splitLines] at hp
    by_cases hc : c = '\n'
    · simp [hc] at hp
      rcases hp with h | h
      · simp [h]
      · exact ih p h
    · simp [hc] at hp
      cases h : splitLines t with
      | nil => exact absurd h (splitLines_ne_nil t)
      | cons q rest =>
        rw [h] at hp
        simp at hp
        rcases hp with h1 | h1
        · subst h1
          intro hmem
          simp at hmem
          rcases hmem with h2 | h2
          · exact hc h2.symm
          · exact ih q (by simp [h]) h2
        · exact ih p (by simp [h, h1])

theorem splitLines_append_newline (a b : List Char) :
    splitLines (a ++ '\n' :: b) = splitLines a ++ splitLines b := by
  induction a with
  | nil => simp [splitLines]
  | cons c t ih =>
    by_cases hc : c = '\n'
    · simp [splitLines, hc, ih]
    · simp only [List.cons_append, splitLines, hc, if_false, List.append_eq]
      rw [ih]
      cases h : splitLines t with
      | nil => exact absurd h (splitLines_ne_nil t)
      | cons p rest => simp

theorem splitLines_joinLines (ls : List (List Char)) (hne : ls ≠ [])
    (hnl : ∀ p ∈ ls, '\n' ∉ p) : splitLines (joinLines ls) = ls := by
  induction ls with
  | nil => exact absurd rfl hne
  | cons l rest ih =>
    cases rest with
    | nil =>
      simp only [joinLines]
      have hl : '\n' ∉ l := hnl l (by simp)
      clear hnl hne ih
      induction l with
      | nil => simp [splitLines]
      | cons c t iht =>
        have hc : c ≠ '\n' := by intro h; exact hl (by simp [h])
        have ht : '\n' ∉ t := by intro h; exact hl (by simp [h])
        simp only [splitLines, hc, if_false, iht ht]
    | cons m rest2 =>
      have step : joinLines (l :: m :: rest2) = l ++ '\n' :: joinLines (m :: rest2) := rfl
      rw [step, splitLines_append_newline]
      have h1 : splitLines l = [l] := by
        have hl : '\n' ∉ l := hnl l (by simp)
        clear hnl hne ih step
        induction l with
        | nil => simp [splitLines]
        | cons c t iht =>
          have hc : c ≠ '\n' := by intro h; exact hl (by simp [h])
          have ht : '\n' ∉ t := by intro h; exact hl (by simp [h])
          simp only [splitLines, hc, if_false, iht ht]
      rw [h1, ih (by simp) (fun p hp => hnl p (by simp [hp]))]
      simp

/-! ## Chunker (`splitIntoChunks`, `needsChunking`) -/

/-- `CHUNK_SIZE = 8000`: characters per chunk. -/
def CHUNK_SIZE : Nat := 8000

/-- `CHUNK_OVERLAP = 500`: overlap between chunks. -/
def CHUNK_OVERLAP : Nat := 500

/-- `Math.ceil(CHUNK_OVERLAP / 80)`, the ~80-chars-per-line overlap estimate. -/
def overlapLines : Nat := (CHUNK_OVERLAP + 79) / 80

/-- `/^#{1,6}\s/.test(line)`: one to six leading `#` followed by a whitespace
character.  (A run of seven or more `#` never matches: after at most six `#`
the next character is `#`, which is not `\s`.) -/
def isMdHeadingTest (l : List Char) : Bool :=
  let r := (l.takeWhile (· = '#')).length
  decide (1 ≤ r) && decide (r ≤ 6) &&
    (match l.drop r with
     | c :: _ => jsIsSpace c
     | [] => false)

/-- A line at which `splitIntoChunks` prefers to split: blank after trimming,
or a markdown heading (`currentChunk[j].trim() === '' || /^#{1,6}\s/.test(...)`). -/
def isSplitLine (l : List Char) : Bool :=
  (jsTrim l).isEmpty || isMdHeadingTest l

/-- The backward search of `splitIntoChunks`: from `j = len - 1` down to
`j0 = Math.floor(len * 0.7)`, return `j + 1` for the first split line found,
else `len`. -/
def findSplitGo (cur : List (List Char)) (len j0 : Nat) : Nat → Nat
  | 0 => if 0 < j0 then len else if isSplitLine (cur.getD 0 []) then 1 else len
  | j + 1 =>
    if j + 1 < j0 then len
    else if isSplitLine (cur.getD (j + 1) []) then j + 2
    else findSplitGo cur len j0 j

/-- Split-point selection for a buffer about to be closed. -/
def findSplit (cur : List (List Char)) : Nat :=
  findSplitGo cur cur.length (7 * cur.length / 10) (cur.length - 1)

/-- `ContentChunk`: chunk with positional metadata. -/
structure ContentChunk where
  index : Nat
  content : List Char
  startLine : Nat
  endLine : Nat
  isFirst : Bool
  isLast : Bool
deriving DecidableEq

/-- Set `isLast = true` on the final chunk (`chunks[chunks.length - 1].isLast = true`). -/
def markLast : List ContentChunk → List ContentChunk
  | [] => []
  | [c] => [{ c with isLast := true }]
  | c :: rest => c :: markLast rest

/-- The accumulation loop of `splitIntoChunks`; `i` is the absolute index of
the next line, the remaining arguments are the loop's mutable state.
`i - keep.length + 1` reproduces the source's `chunkStartLine` bookkeeping
(truncated at 0 like JS `Math.max` is not applied in the source; in every
reachable state `keep.length ≤ i`). -/
def chunkLoop : List (List Char) → Nat → List ContentChunk →
    List (List Char) → Nat → Nat → Nat → List ContentChunk
  | [], i, chunks, cur, _, startL, ci =>
    if cur.isEmpty then chunks
    else chunks ++ [⟨ci, joinLines cur, startL, i - 1, chunks.isEmpty, true⟩]
  | line :: rest, i, chunks, cur, curLen, startL, ci =>
    let lineLength := line.length + 1
    if curLen + lineLength > CHUNK_SIZE ∧ ¬ cur.isEmpty then
      let splitIndex := findSplit cur
      let chunkContent := joinLines (cur.take splitIndex)
      let keep := cur.drop (splitIndex - overlapLines)
      chunkLoop rest (i + 1)
        (chunks ++ [⟨ci, chunkContent, startL, startL + splitIndex - 1, chunks.isEmpty, false⟩])
        (keep ++ [line]) ((joinLines keep).length + lineLength)
        (i - keep.length + 1) (ci + 1)
    else
      chunkLoop rest (i + 1) chunks (cur ++ [line]) (curLen + lineLength) startL ci

/-- `splitIntoChunks(content)`. -/
def splitIntoChunks (content : List Char) : List ContentChunk :=
  markLast (chunkLoop (splitLines content) 0 [] [] 0 0 0)

/-- `needsChunking(content)`. -/
def needsChunking (content : List Char) : Bool :=
  content.length > CHUNK_SIZE

/-- C9: `needsChunking(D)` is false iff `length(D) <= CHUNK_SIZE`. -/
theorem needsChunking_false_iff (content : List Char) :
    needsChunking content = false ↔ content.length ≤ CHUNK_SIZE := by
  simp [needsChunking]

/-- A newline-free string is split into a single line. -/
theorem splitLines_eq_single (l : List Char) (hl : '\n' ∉ l) :
    splitLines l = [l] := by
  induction l with
  | nil => simp [splitLines]
  | cons c t iht =>
    have hc : c ≠ '\n' := by intro h; exact hl (by simp [h])
    have ht : '\n' ∉ t := by intro h; exact hl (by simp [h])
    simp only [splitLines, hc, if_false, iht ht]

/-- On a one-line buffer the backward search degenerates: the split index is 1
whether or not the single line is a preferred split point. -/
theorem findSplit_singleton (l : List Char) : findSplit [l] = 1 := by
  unfold findSplit findSplitGo
  simp

/-- The document refuting C1: a line of 8000 `a`, then the line `b`. -/
def c1doc : List Char := List.replicate 8000 'a' ++ '\n' :: ['b']

/-- C1 (code bug, evaluation): on `c1doc` the chunker emits a second,
overlap-seeded chunk whose `content` is the whole document (both lines,
starting at absolute line 0) while its recorded `startLine` and `endLine`
are both 1: `startLine` does not point at the line where the chunk's
content begins, contradicting the claimed invariant
`content = lines[startLine..endLine]`. -/
theorem splitIntoChunks_c1doc_eval :
    (splitIntoChunks c1doc).map (fun c => (c.content, c.startLine, c.endLine)) =
      [(List.replicate 8000 'a', 0, 0), (c1doc, 1, 1)] := by
  have ha : '\n' ∉ List.replicate 8000 'a' := by
    intro h
    exact absurd (List.eq_of_mem_replicate h) (by decide)
  have h1 : splitLines c1doc = [List.replicate 8000 'a', ['b']] := by
    rw [c1doc, splitLines_append_newline, splitLines_eq_single _ ha,
      splitLines_eq_single ['b'] (by decide)]
    rfl
  rw [splitIntoChunks, h1]
  unfold c1doc
  obtain ⟨A, hA, hlen⟩ : ∃ A : List Char, List.replicate 8000 'a' = A ∧ A.length = 8000 :=
    ⟨_, rfl, List.length_replicate _ _⟩
  rw [hA]
  simp [chunkLoop, CHUNK_SIZE, overlapLines, CHUNK_OVERLAP, findSplit_singleton,
    joinLines, markLast, hlen]

/-- The document refuting C3's no-empty-chunk half: an empty first line
followed by a line of 7999 `a` (8000 characters in total). -/
def c3doc : List Char := '\n' :: List.replicate 7999 'a'

/-- C3 (counterexample): on `c3doc` the first emitted chunk has empty
`content` — `splitIntoChunks` can emit an empty chunk. -/
theorem splitIntoChunks_c3doc_empty_chunk :
    (splitIntoChunks c3doc).map (fun c => c.content) = [[], c3doc] := by
  have ha : '\n' ∉ List.replicate 7999 'a' := by
    intro h
    exact absurd (List.eq_of_mem_replicate h) (by decide)
  have h1 : splitLines c3doc = [[], List.replicate 7999 'a'] := by
    have hd : c3doc = [] ++ '\n' :: List.replicate 7999 'a' := rfl
    rw [hd, splitLines_append_newline, splitLines_eq_single _ ha]
    rfl
  rw [splitIntoChunks, h1]
  unfold c3doc
  obtain ⟨A, hA, hlen⟩ : ∃ A : List Char, List.replicate 7999 'a' = A ∧ A.length = 7999 :=
    ⟨_, rfl, List.length_replicate _ _⟩
  rw [hA]
  simp [chunkLoop, CHUNK_SIZE, overlapLines, CHUNK_OVERLAP, findSplit_singleton,
    joinLines, markLast, hlen]

/-! ## C3: line coverage of the chunker -/

theorem findSplitGo_bounds (cur : List (List Char)) (len j0 : Nat) :
    ∀ j, j + 1 ≤ len → 1 ≤ findSplitGo cur len j0 j ∧ findSplitGo cur len j0 j ≤ len := by
  intro j
  induction j with
  | zero =>
    intro h
    unfold findSplitGo
    split
    · exact ⟨by omega, le_refl len⟩
    · split
      · exact ⟨le_refl 1, by omega⟩
      · exact ⟨by omega, le_refl len⟩
  | succ j ih =>
    intro h
    unfold findSplitGo
    split
    · exact ⟨by omega, le_refl len⟩
    · split
      · exact ⟨by omega, h⟩
      · exact ih (by omega)

theorem findSplit_bounds (cur : List (List Char)) (h : cur ≠ []) :
    1 ≤ findSplit cur ∧ findSplit cur ≤ cur.length := by
  have hlen : 0 < cur.length := List.length_pos.mpr h
  unfold findSplit
  exact findSplitGo_bounds cur cur.length _ (cur.length - 1) (by omega)

theorem markLast_map_content (cs : List ContentChunk) :
    (markLast cs).map (fun c => c.content) = cs.map (fun c => c.content) := by
  induction cs with
  | nil => rfl
  | cons c rest ih =>
    cases rest with
    | nil => rfl
    | cons d rest2 =>
      have step : markLast (c :: d :: rest2) = c :: markLast (d :: rest2) := rfl
      rw [step, List.map_cons, ih]
      rfl

theorem markLast_length (cs : List ContentChunk) :
    (markLast cs).length = cs.length := by
  induction cs with
  | nil => rfl
  | cons c rest ih =>
    cases rest with
    | nil => rfl
    | cons d rest2 =>
      have step : markLast (c :: d :: rest2) = c :: markLast (d :: rest2) := rfl
      rw [step, List.length_cons, ih]
      rfl

theorem drop_append_of_le {α : Type} (A B : List α) (n : Nat) (h : n ≤ A.length) :
    (A ++ B).drop n = A.drop n ++ B := by
  rw [List.drop_append_eq_append_drop, Nat.sub_eq_zero_of_le h, List.drop_zero]

theorem take_drop_chain {α : Type} (l : List α) (b n : Nat) (hbn : b ≤ n)
    (hbl : b ≤ l.length) : (l.take n).drop b ++ l.drop n = l.drop b := by
  conv_rhs => rw [← List.take_append_drop n l]
  rw [drop_append_of_le _ _ _ (by rw [List.length_take]; omega)]

/-- The rebasing function of the coverage statement: a chunk's line list with
a prefix of `d` de-duplicated overlap lines removed. -/
def dropOverlap (d : Nat) (content : List Char) : List (List Char) :=
  (splitLines content).drop d

/-- Coverage invariant for `chunkLoop`: the lines consumed so far are exactly
the emitted chunks' lines (each chunk with a bounded overlap prefix removed)
followed by the still-open buffer's not-yet-accounted lines. -/
theorem chunkLoop_cover (rest : List (List Char)) :
    ∀ (i : Nat) (chunks : List ContentChunk) (cur : List (List Char))
      (curLen startL ci b : Nat) (ds0 : List Nat) (pre : List (List Char)),
      (∀ l ∈ rest, '\n' ∉ l) →
      (∀ l ∈ cur, '\n' ∉ l) →
      (b + 1 ≤ cur.length ∨ (b = 0 ∧ cur = [])) →
      b ≤ overlapLines →
      ds0.length = chunks.length →
      (List.zipWith dropOverlap ds0 (chunks.map (fun c => c.content))).flatten
          ++ cur.drop b = pre →
      ∃ ds1 : List Nat,
        (ds0 ++ ds1).length = (chunkLoop rest i chunks cur curLen startL ci).length ∧
        (∀ d ∈ ds1, d ≤ overlapLines) ∧
        (∀ d0, ds1.head? = some d0 → d0 ≤ b) ∧
        ((cur ≠ [] ∨ rest ≠ []) → ds1 ≠ []) ∧
        (List.zipWith dropOverlap (ds0 ++ ds1)
            ((chunkLoop rest i chunks cur curLen startL ci).map (fun c => c.content))).flatten
          = pre ++ rest := by
  induction rest with
  | nil =>
    intro i chunks cur curLen startL ci b ds0 pre hnlr hnlc hb hbov hlen hpre
    by_cases hcur : cur.isEmpty
    · have hc : cur = [] := List.isEmpty_iff.mp hcur
      subst hc
      have hres : chunkLoop [] i chunks [] curLen startL ci = chunks := rfl
      refine ⟨[], by simpa [hres] using hlen, by simp, by simp, ?_, ?_⟩
      · intro h
        rcases h with h | h
        · exact absurd rfl h
        · exact absurd rfl h
      · rw [hres]
        simpa using hpre
    · have hc : cur ≠ [] := by
        intro h; rw [h] at hcur; exact hcur rfl
      have hres : chunkLoop [] i chunks cur curLen startL ci =
          chunks ++ [⟨ci, joinLines cur, startL, i - 1, chunks.isEmpty, true⟩] := by
        unfold chunkLoop; rw [if_neg hcur]
      refine ⟨[b], ?_, ?_, ?_, ?_, ?_⟩
      · rw [hres]; simp [hlen]
      · intro d hd; simp at hd; omega
      · intro d0 hd0; simp at hd0; omega
      · intro _; simp
      · rw [hres, List.map_append,
          List.zipWith_append _ _ _ _ _ (by rw [hlen, List.length_map]),
          List.flatten_append]
        have hone : (List.zipWith dropOverlap [b]
            ([(⟨ci, joinLines cur, startL, i - 1, chunks.isEmpty, true⟩ :
                ContentChunk)].map (fun c => c.content))).flatten = cur.drop b := by
          simp only [List.map_cons, List.map_nil, List.zipWith_cons_cons,
            List.zipWith_nil_right, dropOverlap]
          rw [splitLines_joinLines cur hc hnlc]
          simp
        rw [hone, hpre]
        simp
  | cons line rest2 ih =>
    intro i chunks cur curLen startL ci b ds0 pre hnlr hnlc hb hbov hlen hpre
    have hnlline : '\n' ∉ line := hnlr line (by simp)
    have hnlr2 : ∀ l ∈ rest2, '\n' ∉ l := fun l hl => hnlr l (by simp [hl])
    by_cases hguard : curLen + (line.length + 1) > CHUNK_SIZE ∧ ¬cur.isEmpty = true
    · -- split branch
      have hc : cur ≠ [] := by
        intro h; rw [h] at hguard; exact hguard.2 rfl
      have hbcur : b + 1 ≤ cur.length := by
        rcases hb with h | ⟨_, h⟩
        · exact h
        · exact absurd h hc
      obtain ⟨hn1, hnle⟩ := findSplit_bounds cur hc
      have hres : chunkLoop (line :: rest2) i chunks cur curLen startL ci =
          chunkLoop rest2 (i + 1)
            (chunks ++ [⟨ci, joinLines (cur.take (findSplit cur)), startL,
              startL + findSplit cur - 1, chunks.isEmpty, false⟩])
            (cur.drop (findSplit cur - overlapLines) ++ [line])
            ((joinLines (cur.drop (findSplit cur - overlapLines))).length +
              (line.length + 1))
            (i - (cur.drop (findSplit cur - overlapLines)).length + 1) (ci + 1) := by
        simp only [chunkLoop]
        rw [if_pos hguard]
      have hov : overlapLines = 7 := rfl
      set n := findSplit cur with hn
      set s := n - overlapLines with hs
      set dNew := min b n with hdNew
      set b2 := if n < b then b else n - s with hb2def
      have hkey : dropOverlap dNew (joinLines (cur.take n)) ++
          ((cur.drop s ++ [line]).drop b2) = cur.drop b ++ [line] := by
        have htake_ne : cur.take n ≠ [] := by
          intro h
          have h2 := congrArg List.length h
          rw [List.length_take] at h2
          simp only [List.length_nil] at h2
          omega
        have hnl_take : ∀ l ∈ cur.take n, '\n' ∉ l :=
          fun l hl => hnlc l (List.mem_of_mem_take hl)
        rw [dropOverlap, splitLines_joinLines _ htake_ne hnl_take]
        by_cases hcase : n < b
        · have hs0 : s = 0 := by rw [hs]; omega
          have hd : dNew = n := by rw [hdNew]; omega
          have hb2 : b2 = b := by rw [hb2def, if_pos hcase]
          have htk : (cur.take n).drop n = [] := by
            apply List.drop_eq_nil_of_le
            rw [List.length_take]; omega
          rw [hd, hb2, hs0, List.drop_zero, htk, List.nil_append,
            drop_append_of_le _ _ _ (by omega)]
        · push_neg at hcase
          have hd : dNew = b := by rw [hdNew]; omega
          have hb2 : b2 = n - s := by rw [hb2def, if_neg (by omega)]
          have hb2le : n - s ≤ (cur.drop s).length := by
            rw [List.length_drop]; omega
          rw [hd, hb2, drop_append_of_le _ _ _ hb2le, List.drop_drop,
            show s + (n - s) = n from by omega,
            ← List.append_assoc, take_drop_chain cur b n hcase (by omega)]
      obtain ⟨ds1, ihlen, ihbound, ihhead, ihne, ihflat⟩ :=
        ih (i + 1)
          (chunks ++ [⟨ci, joinLines (cur.take n), startL,
            startL + n - 1, chunks.isEmpty, false⟩])
          (cur.drop s ++ [line])
          ((joinLines (cur.drop s)).length + (line.length + 1))
          (i - (cur.drop s).length + 1) (ci + 1) b2 (ds0 ++ [dNew]) (pre ++ [line])
          hnlr2
          (by
            intro l hl
            rcases List.mem_append.mp hl with h | h
            · exact hnlc l (List.mem_of_mem_drop h)
            · simp at h; subst h; exact hnlline)
          (by
            left
            rw [List.length_append, List.length_drop]
            simp only [List.length_cons, List.length_nil]
            by_cases hcase : n < b
            · have : b2 = b := by rw [hb2def, if_pos hcase]
              omega
            · have : b2 = n - s := by rw [hb2def, if_neg hcase]
              omega)
          (by
            by_cases hcase : n < b
            · have : b2 = b := by rw [hb2def, if_pos hcase]
              omega
            · have : b2 = n - s := by rw [hb2def, if_neg hcase]
              rw [this, hs]; omega)
          (by simp [hlen])
          (by
            rw [List.map_append,
              List.zipWith_append _ _ _ _ _ (by rw [hlen, List.length_map]),
              List.flatten_append]
            simp only [List.map_cons, List.map_nil, List.zipWith_cons_cons,
              List.zipWith_nil_right]
            rw [List.flatten_cons, List.flatten_nil, List.append_nil,
              List.append_assoc, hkey, ← List.append_assoc, hpre])
      refine ⟨dNew :: ds1, ?_, ?_, ?_, ?_, ?_⟩
      · rw [hres, ← ihlen]
        simp
      · intro d hd
        rcases List.mem_cons.mp hd with h | h
        · subst h; rw [hdNew]; omega
        · exact ihbound d h
      · intro d0 hd0
        simp at hd0
        rw [← hd0, hdNew]; omega
      · intro _; simp
      · rw [hres, show ds0 ++ dNew :: ds1 = (ds0 ++ [dNew]) ++ ds1 by simp, ihflat,
          List.append_assoc]
        rfl
    · -- push branch
      have hres : chunkLoop (line :: rest2) i chunks cur curLen startL ci =
          chunkLoop rest2 (i + 1) chunks (cur ++ [line])
            (curLen + (line.length + 1)) startL ci := by
        simp only [chunkLoop]
        rw [if_neg hguard]
      have hble : b ≤ cur.length := by
        rcases hb with h | ⟨h0, hnil⟩
        · omega
        · subst h0; omega
      obtain ⟨ds1, ihlen, ihbound, ihhead, ihne, ihflat⟩ :=
        ih (i + 1) chunks (cur ++ [line]) (curLen + (line.length + 1)) startL ci b
          ds0 (pre ++ [line])
          hnlr2
          (by
            intro l hl
            rcases List.mem_append.mp hl with h | h
            · exact hnlc l h
            · simp at h; subst h; exact hnlline)
          (by left; rw [List.length_append]; simp; omega)
          hbov hlen
          (by rw [drop_append_of_le _ _ _ hble, ← List.append_assoc, hpre])
      refine ⟨ds1, ?_, ihbound, ihhead, ?_, ?_⟩
      · rw [hres]; exact ihlen
      · intro _
        exact ihne (Or.inl (by simp))
      · rw [hres, ihflat, List.append_assoc]
        rfl

/-- C3 (amended, line coverage): for every document there is one bounded
overlap-prefix count per chunk (at most `overlapLines` = 7, and 0 for the
first chunk) such that dropping those prefixes and concatenating the chunks'
lines reconstructs the document's lines exactly: no line is dropped, and no
line is duplicated beyond the declared overlap. -/
theorem splitIntoChunks_reconstructs_lines (content : List Char) :
    ∃ ds : List Nat,
      ds.length = (splitIntoChunks content).length ∧
      ds.head? = some 0 ∧
      (∀ d ∈ ds, d ≤ overlapLines) ∧
      (List.zipWith dropOverlap ds
          ((splitIntoChunks content).map (fun c => c.content))).flatten
        = splitLines content := by
  obtain ⟨ds1, hlen, hbound, hhead, hne, hflat⟩ :=
    chunkLoop_cover (splitLines content) 0 [] [] 0 0 0 0 [] []
      (mem_splitLines_no_newline content) (by simp) (Or.inr ⟨rfl, rfl⟩)
      (Nat.zero_le _) rfl (by simp)
  have hne2 : ds1 ≠ [] := hne (Or.inr (splitLines_ne_nil content))
  refine ⟨ds1, ?_, ?_, hbound, ?_⟩
  · rw [splitIntoChunks, markLast_length]
    simpa using hlen
  · cases ds1 with
    | nil => exact absurd rfl hne2
    | cons d0 ds2 =>
      have h0 : d0 ≤ 0 := hhead d0 rfl
      simp [Nat.le_zero.mp h0]
  · rw [splitIntoChunks, markLast_map_content]
    simpa using hflat

/-! ## HeadingClassifier (`isChapterHeading` and the `CHAPTER_PATTERNS` table)

`Char.toUpper`/`Char.toLower` (ASCII case mapping, identity on caseless
scripts such as Hangul) model `toUpperCase`/`toLowerCase`. -/

/-- `[A-Z]`. -/
def isAsciiUpper (c : Char) : Bool := 'A' ≤ c && c ≤ 'Z'

/-- `[a-z]`. -/
def isAsciiLower (c : Char) : Bool := 'a' ≤ c && c ≤ 'z'

/-- The source's letter class `[a-zA-Z가-힣]`. -/
def jsIsLetter (c : Char) : Bool := isAsciiLower c || isAsciiUpper c || isHangul c

/-- `\s+(.+)$` applied to `rest` (with `$` = end of input and `.` excluding
LF): greedily take the whitespace run; the remainder must be nonempty and
LF-free.  If the remainder is empty the engine backtracks one whitespace
character into `(.+)` — possible only for a run of length at least 2 whose
last character is not LF. -/
def plusTail (rest : List Char) : Option (List Char) :=
  let w := rest.takeWhile jsIsSpace
  if w.isEmpty then none
  else
    let t := rest.drop w.length
    if t.isEmpty then
      if 2 ≤ w.length then
        match w.getLast? with
        | some c => if c = '\n' then none else some [c]
        | none => none
      else none
    else if t.contains '\n' then none else some t

/-- `/^(#{1,6})\s+(.+)$/`: level and raw second group.  (A run of 7 or more
`#` fails: any 1–6 of them leave a `#` where `\s` is required.) -/
def mdHeadingMatch (l : List Char) : Option (Nat × List Char) :=
  let r := (l.takeWhile (· = '#')).length
  if 1 ≤ r ∧ r ≤ 6 then
    match plusTail (l.drop r) with
    | some g2 => some (r, g2)
    | none => none
  else none

/-- `\s*[.:：]?\s*(.+)?$`: `none` = the enclosing pattern fails (an LF sits in
the would-be capture, which `.` cannot cross and `\s*` cannot absorb);
`some none` = match with absent group; `some (some g)` = match capturing `g`. -/
def tailGroup (l : List Char) : Option (Option (List Char)) :=
  let w1 := l.drop (l.takeWhile jsIsSpace).length
  let w2 := match w1 with
    | c :: t => if c = '.' ∨ c = ':' ∨ c = '：' then t else w1
    | [] => w1
  let w3 := w2.drop (w2.takeWhile jsIsSpace).length
  if w3.isEmpty then some none
  else if w3.contains '\n' then none
  else some (some w3)

/-- `/^(제\s*\d+\s*장)\s*[.:：]?\s*(.+)?$/` and its 편/부/절 siblings. -/
def koreanNumberedMatch (marker : Char) (l : List Char) :
    Option (List Char × Option (List Char)) :=
  match l with
  | [] => none
  | c :: rest =>
    if c = '제' then
      let ws1 := rest.takeWhile jsIsSpace
      let r1 := rest.drop ws1.length
      let ds := r1.takeWhile jsIsDigit
      if ds.isEmpty then none
      else
        let r2 := r1.drop ds.length
        let ws2 := r2.takeWhile jsIsSpace
        match r2.drop ws2.length with
        | m :: r4 =>
          if m = marker then
            match tailGroup r4 with
            | some g2 => some ('제' :: (ws1 ++ ds ++ ws2 ++ [marker]), g2)
            | none => none
          else none
        | [] => none
    else none

/-- `/^(\d+장)\s*[.:：]?\s*(.+)?$/`. -/
def jangNumberMatch (l : List Char) : Option (List Char × Option (List Char)) :=
  let ds := l.takeWhile jsIsDigit
  if ds.isEmpty then none
  else
    match l.drop ds.length with
    | m :: r =>
      if m = '장' then
        match tailGroup r with
        | some g2 => some (ds ++ ['장'], g2)
        | none => none
      else none
    | [] => none

/-- Case-insensitive prefix test (the `i` flag on a literal word). -/
def startsWithCI : List Char → List Char → Bool
  | [], _ => true
  | _ :: _, [] => false
  | p :: ps, c :: cs => (Char.toLower c == Char.toLower p) && startsWithCI ps cs

/-- `/^(Word\s+\d+)\s*[.:：]?\s*(.+)?$/i` for Chapter/Part/Section. -/
def englishNumberedMatch (word : List Char) (l : List Char) :
    Option (List Char × Option (List Char)) :=
  if startsWithCI word l then
    let rest := l.drop word.length
    let ws := rest.takeWhile jsIsSpace
    if ws.isEmpty then none
    else
      let r1 := rest.drop ws.length
      let ds := r1.takeWhile jsIsDigit
      if ds.isEmpty then none
      else
        match tailGroup (r1.drop ds.length) with
        | some g2 => some (l.take word.length ++ ws ++ ds, g2)
        | none => none
  else none

/-- `/^(A|B|...)/i`: unanchored-at-the-end prefix alternation; the capture is
the matched prefix in its original characters. -/
def altStartMatch (alts : List (List Char)) (l : List Char) : Option (List Char) :=
  match alts with
  | [] => none
  | a :: rest => if startsWithCI a l then some (l.take a.length) else altStartMatch rest l

/-- `/^(\d+)\s*[.．]\s+(.+)$/`. -/
def numberedDotMatch (l : List Char) : Option (List Char × Option (List Char)) :=
  let ds := l.takeWhile jsIsDigit
  if ds.isEmpty then none
  else
    let r1 := l.drop ds.length
    let ws := r1.takeWhile jsIsSpace
    match r1.drop ws.length with
    | c :: r2 =>
      if c = '.' ∨ c = '．' then
        match plusTail r2 with
        | some g2 => some (ds, some g2)
        | none => none
      else none
    | [] => none

/-- `[IVXLCDM]` with the `i` flag. -/
def isRomanChar (c : Char) : Bool :=
  let u := Char.toUpper c
  u == 'I' || u == 'V' || u == 'X' || u == 'L' || u == 'C' || u == 'D' || u == 'M'

/-- `/^([IVXLCDM]+)\s*[.．]\s+(.+)$/i`. -/
def romanDotMatch (l : List Char) : Option (List Char × Option (List Char)) :=
  let rs := l.takeWhile isRomanChar
  if rs.isEmpty then none
  else
    let r1 := l.drop rs.length
    let ws := r1.takeWhile jsIsSpace
    match r1.drop ws.length with
    | c :: r2 =>
      if c = '.' ∨ c = '．' then
        match plusTail r2 with
        | some g2 => some (rs, some g2)
        | none => none
      else none
    | [] => none

/-- `/^#{1,3}\s+(.+)$/` — here group 1 is the text after the hashes. -/
def mdSmallHeadingMatch (l : List Char) : Option (List Char × Option (List Char)) :=
  let r := (l.takeWhile (· = '#')).length
  if 1 ≤ r ∧ r ≤ 3 then
    match plusTail (l.drop r) with
    | some g1 => some (g1, none)
    | none => none
  else none

/-- The Korean standalone-marker alternation of `CHAPTER_PATTERNS`. -/
def koreanAlts : List (List Char) :=
  [str "프롤로그", str "에필로그", str "서문", str "머리말", str "맺음말",
   str "들어가며", str "나가며"]

/-- The English standalone-marker alternation of `CHAPTER_PATTERNS`. -/
def englishAlts : List (List Char) :=
  [str "Prologue", str "Epilogue", str "Introduction", str "Conclusion",
   str "Preface"]

/-- The ordered `CHAPTER_PATTERNS` table: first match wins. -/
def chapterPatternsMatch (l : List Char) : Option (List Char × Option (List Char)) :=
  (koreanNumberedMatch '장' l).orElse fun _ =>
  (koreanNumberedMatch '편' l).orElse fun _ =>
  (koreanNumberedMatch '부' l).orElse fun _ =>
  (koreanNumberedMatch '절' l).orElse fun _ =>
  (jangNumberMatch l).orElse fun _ =>
  ((altStartMatch koreanAlts l).map (fun g1 => (g1, none))).orElse fun _ =>
  (englishNumberedMatch (str "Chapter") l).orElse fun _ =>
  (englishNumberedMatch (str "Part") l).orElse fun _ =>
  (englishNumberedMatch (str "Section") l).orElse fun _ =>
  ((altStartMatch englishAlts l).map (fun g1 => (g1, none))).orElse fun _ =>
  (numberedDotMatch l).orElse fun _ =>
  (romanDotMatch l).orElse fun _ =>
  mdSmallHeadingMatch l

/-- Case-insensitive substring test (e.g. `/부|Part/i.test(...)`). -/
def containsCI (pat : List Char) : List Char → Bool
  | [] => pat.isEmpty
  | c :: t => startsWithCI pat (c :: t) || containsCI pat t

/-- Level selection from the captured marker (`match[1]`):
`/부|Part/i → 1`, `/편|장|Chapter/i → 2`, `/절|Section/i → 3`, default 1. -/
def levelOfGroup (g1 : List Char) : Nat :=
  if g1.contains '부' || containsCI (str "part") g1 then 1
  else if g1.contains '편' || g1.contains '장' || containsCI (str "chapter") g1 then 2
  else if g1.contains '절' || containsCI (str "section") g1 then 3
  else 1

/-- `/[.。,，;；]$/.test(...)` — the set deliberately excludes `?` and `!`. -/
def endsWithSentencePunct (l : List Char) : Bool :=
  match l.getLast? with
  | some c => c == '.' || c == '。' || c == ',' || c == '，' || c == ';' || c == '；'
  | none => false

/-- `HeadingMatch`: the classification record. -/
structure HeadingMatch where
  isHeading : Bool
  title : List Char
  level : Nat
deriving DecidableEq

/-- `isChapterHeading(line)`. -/
def isChapterHeading (line : List Char) : HeadingMatch :=
  let trimmed := jsTrim line
  if trimmed.isEmpty then ⟨false, [], 0⟩
  else
    match mdHeadingMatch trimmed with
    | some (r, g2) => ⟨true, g2, r⟩
    | none =>
      match chapterPatternsMatch trimmed with
      | some (g1, g2opt) =>
        let title := match g2opt with
          | some g2 => jsTrim (g1 ++ ' ' :: g2)
          | none => g1
        ⟨true, title, levelOfGroup g1⟩
      | none =>
        if 2 ≤ trimmed.length ∧ trimmed.length ≤ 50 then
          let isAllCaps := (trimmed == trimmed.map Char.toUpper) &&
            trimmed.any (fun c => isAsciiUpper c || isHangul c)
          let noEndPunct := ! endsWithSentencePunct trimmed
          let hasLetters := trimmed.any jsIsLetter
          if isAllCaps && noEndPunct && hasLetters then ⟨true, trimmed, 2⟩
          else ⟨false, [], 0⟩
        else ⟨false, [], 0⟩

/-! ## C7: the heuristic fallback of the classifier -/

theorem char_ofNat_toNat (n : Nat) (h1 : 65 ≤ n) (h2 : n ≤ 90) :
    (Char.ofNat n).toNat = n := by
  unfold Char.ofNat
  rw [dif_pos (Or.inl (by omega : n < 0xd800))]
  unfold Char.ofNatAux Char.toNat
  simp [UInt32.ofNat', UInt32.toNat]

theorem toUpper_ne_of_lower (c : Char) (h1 : 'a' ≤ c) (h2 : c ≤ 'z') :
    Char.toUpper c ≠ c := by
  have hn1 : 97 ≤ c.toNat := h1
  have hn2 : c.toNat ≤ 122 := h2
  unfold Char.toUpper
  rw [if_pos ⟨by omega, by omega⟩]
  intro heq
  have h3 := congrArg Char.toNat heq
  rw [char_ofNat_toNat (c.toNat - 32) (by omega) (by omega)] at h3
  omega

theorem eq_map_self {α : Type} (f : α → α) :
    ∀ l : List α, l = l.map f → ∀ c ∈ l, c = f c := by
  intro l
  induction l with
  | nil => intro _ c hc; exact absurd hc (by simp)
  | cons a t ih =>
    intro h c hc
    rw [List.map_cons] at h
    have ha : a = f a := (List.cons.injEq _ _ _ _ ▸ h).1
    have ht : t = t.map f := (List.cons.injEq _ _ _ _ ▸ h).2
    rcases List.mem_cons.mp hc with h1 | h1
    · rw [h1]; exact ha
    · exact ih ht c h1

/-- C7 (general form): a trimmed line of length 2–50 that equals its own
upper-cased form, contains at least one letter, does not end in the
sentence-terminal punctuation set, and is matched neither by the markdown
rule nor by any `CHAPTER_PATTERNS` entry, is classified as a level-2 heading
whose title is the trimmed line itself. -/
theorem isChapterHeading_heuristic (line : List Char)
    (hmd : mdHeadingMatch (jsTrim line) = none)
    (hpat : chapterPatternsMatch (jsTrim line) = none)
    (hlen1 : 2 ≤ (jsTrim line).length) (hlen2 : (jsTrim line).length ≤ 50)
    (hupper : jsTrim line = (jsTrim line).map Char.toUpper)
    (hletter : (jsTrim line).any jsIsLetter = true)
    (hpunct : endsWithSentencePunct (jsTrim line) = false) :
    isChapterHeading line = ⟨true, jsTrim line, 2⟩ := by
  have hne : (jsTrim line).isEmpty = false := by
    cases h : jsTrim line with
    | nil => rw [h] at hlen1; simp at hlen1
    | cons a t => simp
  have hcaps : (jsTrim line).any (fun c => isAsciiUpper c || isHangul c) = true := by
    rw [List.any_eq_true] at hletter ⊢
    obtain ⟨c, hc, hlc⟩ := hletter
    refine ⟨c, hc, ?_⟩
    have hcu : c = Char.toUpper c := eq_map_self Char.toUpper _ hupper c hc
    simp only [jsIsLetter, Bool.or_eq_true] at hlc
    rcases hlc with (hl | hu) | hh
    · exfalso
      simp only [isAsciiLower, Bool.and_eq_true, decide_eq_true_eq] at hl
      exact toUpper_ne_of_lower c hl.1 hl.2 hcu.symm
    · simp [hu]
    · simp [hh]
  have hbeq : ((jsTrim line) == (jsTrim line).map Char.toUpper) = true := by
    rw [beq_iff_eq]
    exact hupper
  unfold isChapterHeading
  simp only [hne, Bool.false_eq_true, if_false, hmd, hpat]
  rw [if_pos ⟨hlen1, hlen2⟩]
  rw [if_pos (by rw [hbeq, hcaps, hpunct, hletter]; rfl)]

/-- C7 (witness): the line `"CHAPTER ONE"` is classified as a level-2 heading
by the heuristic fallback. -/
theorem isChapterHeading_chapter_one :
    isChapterHeading (str "CHAPTER ONE") = ⟨true, str "CHAPTER ONE", 2⟩ :=
  isChapterHeading_heuristic (str "CHAPTER ONE") (by decide) (by decide)
    (by decide) (by decide) (by decide) (by decide) (by decide)

/-! ## TOCExtractor (`generateHeadingId`, `extractTableOfContents`) -/

/-- `replace(/\s+/g, '-')`: each whitespace run becomes one hyphen (the
flag records whether the previous character was part of a run). -/
def wsDashGo (prevWs : Bool) : List Char → List Char
  | [] => []
  | c :: t =>
    if jsIsSpace c then (if prevWs then [] else ['-']) ++ wsDashGo true t
    else c :: wsDashGo false t

def wsRunsToDash (l : List Char) : List Char := wsDashGo false l

/-- The global `-+` to `-` replace: each hyphen run becomes one hyphen. -/
def dashGo (prevDash : Bool) : List Char → List Char
  | [] => []
  | c :: t =>
    if c = '-' then (if prevDash then [] else ['-']) ++ dashGo true t
    else c :: dashGo false t

def dashCollapse (l : List Char) : List Char := dashGo false l

/-- Characters kept by `replace(/[^a-z0-9가-힣\s-]/g, '')` (after lowercasing). -/
def slugKeep (c : Char) : Bool :=
  isAsciiLower c || jsIsDigit c || isHangul c || jsIsSpace c || c == '-'

/-- The slug of `generateHeadingId`: lowercase, strip, whitespace runs to
hyphens, collapse hyphen runs, trim. -/
def slugOf (text : List Char) : List Char :=
  jsTrim (dashCollapse (wsRunsToDash ((text.map Char.toLower).filter slugKeep)))

/-- `generateHeadingId(text, index)`: the occurrence index is used only when
the slug is empty (`slug || index`). -/
def generateHeadingId (text : List Char) (index : Nat) : List Char :=
  str "heading-" ++
    (if (slugOf text).isEmpty then (toString index).data else slugOf text)

/-- `TOCEntry`. -/
structure TOCEntry where
  id : List Char
  title : List Char
  level : Nat
  position : Int
deriving DecidableEq

/-- The `lines.forEach` of `extractTableOfContents`: `lineIdx` is the current
line index, `headIdx` the running heading count. -/
def extractTOCGo : List (List Char) → Nat → Nat → List TOCEntry
  | [], _, _ => []
  | line :: rest, lineIdx, headIdx =>
    match mdHeadingMatch line with
    | some (level, g2) =>
      let title := jsTrim g2
      ⟨generateHeadingId title headIdx, title, level, (lineIdx : Int) + 1⟩ ::
        extractTOCGo rest (lineIdx + 1) (headIdx + 1)
    | none => extractTOCGo rest (lineIdx + 1) headIdx

/-- `extractTableOfContents(markdown)`. -/
def extractTableOfContents (markdown : List Char) : List TOCEntry :=
  extractTOCGo (splitLines markdown) 0 0

/-! ## C2: identifier distinctness in the extracted TOC -/

/-- C2 (counterexample): two headings with the same title receive the *same*
id — the occurrence counter is consulted only when the slug is empty. -/
theorem extractTOC_duplicate_ids :
    ((extractTableOfContents (str "# A\n# A")).map (fun e => e.id) =
        [str "heading-a", str "heading-a"]) ∧
      ¬ ((extractTableOfContents (str "# A\n# A")).map (fun e => e.id)).Nodup := by
  constructor
  · decide
  · decide

theorem extractTOCGo_id_shape (lines : List (List Char)) :
    ∀ (li hi : Nat) (e : TOCEntry), e ∈ extractTOCGo lines li hi →
      ∃ k, e.id = generateHeadingId e.title k := by
  induction lines with
  | nil => intro li hi e he; simp [extractTOCGo] at he
  | cons line rest ih =>
    intro li hi e he
    rw [extractTOCGo] at he
    cases hm : mdHeadingMatch line with
    | some p =>
      rw [hm] at he
      rcases List.mem_cons.mp he with h | h
      · exact ⟨hi, by rw [h]⟩
      · exact ih (li + 1) (hi + 1) e h
    | none =>
      rw [hm] at he
      exact ih (li + 1) hi e he

/-- C2 (amended): if every extracted heading's normalized slug is nonempty
and the slugs are pairwise distinct, the assigned ids are pairwise distinct
(each id is then `"heading-" ++ slug(title)`, independent of the counter). -/
theorem extractTOC_ids_nodup_of_distinct_slugs (markdown : List Char)
    (hne : ∀ e ∈ extractTableOfContents markdown, slugOf e.title ≠ [])
    (hdis : ((extractTableOfContents markdown).map (fun e => slugOf e.title)).Nodup) :
    ((extractTableOfContents markdown).map (fun e => e.id)).Nodup := by
  have hid : ∀ e ∈ extractTableOfContents markdown,
      e.id = str "heading-" ++ slugOf e.title := by
    intro e he
    obtain ⟨k, hk⟩ := extractTOCGo_id_shape _ 0 0 e he
    rw [hk]
    unfold generateHeadingId
    rw [if_neg (by simpa [List.isEmpty_iff] using hne e he)]
  rw [List.map_congr_left hid]
  have hcomp : (extractTableOfContents markdown).map
      (fun e => str "heading-" ++ slugOf e.title) =
      ((extractTableOfContents markdown).map (fun e => slugOf e.title)).map
        (fun sl => str "heading-" ++ sl) := by
    rw [List.map_map]
    rfl
  rw [hcomp]
  exact hdis.map (fun a b h => List.append_cancel_left h)

/-- C2 (witness): two headings with distinct nonempty slugs do receive
distinct ids. -/
theorem extractTOC_ids_nodup_example :
    ((extractTableOfContents (str "# Alpha\n# Beta")).map (fun e => e.id)).Nodup :=
  extractTOC_ids_nodup_of_distinct_slugs (str "# Alpha\n# Beta")
    (by decide) (by decide)

/-! ## ChapterSplitter, export variant (`splitIntoChapters`, `generateEPUB`) -/

/-- The chapter record used by the export splitter. -/
structure ExportChapter where
  title : List Char
  content : List Char
  level : Nat
deriving DecidableEq

/-- `/^(#{1,2})\s+(.+)$/` (the additional `match[1].length <= 2` check in the
source is subsumed by the pattern). -/
def mdH2Match (l : List Char) : Option (Nat × List Char) :=
  let r := (l.takeWhile (· = '#')).length
  if 1 ≤ r ∧ r ≤ 2 then
    match plusTail (l.drop r) with
    | some g2 => some (r, g2)
    | none => none
  else none

/-- The line loop of `splitIntoChapters`; the accumulator is the open
chapter (title, collected lines, level), if any. -/
def splitChaptersGo : List (List Char) → Option (List Char × List (List Char) × Nat) →
    List ExportChapter
  | [], cc =>
    match cc with
    | some (t, ls, lv) => [⟨t, jsTrim (joinLines ls), lv⟩]
    | none => []
  | line :: rest, cc =>
    match mdH2Match line with
    | some (lv, g2) =>
      match cc with
      | some (t, ls, plv) =>
        ⟨t, jsTrim (joinLines ls), plv⟩ :: splitChaptersGo rest (some (jsTrim g2, [], lv))
      | none => splitChaptersGo rest (some (jsTrim g2, [], lv))
    | none =>
      match cc with
      | some (t, ls, lv) => splitChaptersGo rest (some (t, ls ++ [line], lv))
      | none => splitChaptersGo rest (some (str "Introduction", [line], 1))

/-- `splitIntoChapters(markdown)`: chapters whose trimmed content is empty
are filtered out. -/
def splitIntoChapters (markdown : List Char) : List ExportChapter :=
  (splitChaptersGo (splitLines markdown) none).filter (fun ch => ch.content.length > 0)

/-- The chapter-list preparation of `generateEPUB` (its lines 22–31): if the
splitter returned no chapters, substitute a single synthetic chapter holding
the whole document (`options.metadata.title || 'Content'` is abstracted as
`fallbackTitle`). -/
def generateEPUBChapters (markdown fallbackTitle : List Char) : List ExportChapter :=
  if (splitIntoChapters markdown).isEmpty then [⟨fallbackTitle, markdown, 1⟩]
  else splitIntoChapters markdown

/-! ## C6: the export splitter and its fallback -/

/-- C6 (counterexample): a document that is a single level-1 heading yields
*zero* chapters from `splitIntoChapters` — the lone chapter's content trims
to empty and is filtered out. -/
theorem splitIntoChapters_heading_only_empty :
    splitIntoChapters (str "# A") = [] := by decide

/-- C6 (amended): the chapter list actually used by `generateEPUB` is never
empty — the fallback synthesizes one chapter spanning the whole document
whenever the splitter returns none. -/
theorem generateEPUBChapters_ne_nil (markdown fallbackTitle : List Char) :
    generateEPUBChapters markdown fallbackTitle ≠ [] := by
  unfold generateEPUBChapters
  split
  · simp
  · rename_i h
    simpa [List.isEmpty_iff] using h

/-! ## ReadabilityScorer (`analyzeReadability`) -/

/-- `ReadabilityReport`. -/
structure ReadabilityReport where
  issues : List (List Char)
  score : Nat
  suggestions : List (List Char)
deriving DecidableEq

/-- Counts the maximal runs of two or more spaces — the number of matches of
the global regex `/  +/` (`prev` is the character before the window, with an
LF sentinel at the start). -/
def runsAux (prev : Char) : List Char → Nat
  | a :: b :: t => (if prev ≠ ' ' ∧ a = ' ' ∧ b = ' ' then 1 else 0) + runsAux a (b :: t)
  | _ => 0

/-- `content.match(/  +/g)?.length ?? 0`. -/
def doubleSpaceRuns (content : List Char) : Nat := runsAux '\n' content

/-- `lines.filter(l => l.trim())`. -/
def nonEmptyLinesOf (content : List Char) : List (List Char) :=
  (splitLines content).filter (fun l => !(jsTrim l).isEmpty)

/-- `nonEmptyLines.filter(l => l.length > 200)`. -/
def longLinesOf (content : List Char) : List (List Char) :=
  (nonEmptyLinesOf content).filter (fun l => decide (l.length > 200))

/-- `lines.filter(l => /^#{1,6}\s/.test(l) || isChapterHeading(l).isHeading)`. -/
def detectedHeadings (content : List Char) : List (List Char) :=
  (splitLines content).filter (fun l => isMdHeadingTest l || (isChapterHeading l).isHeading)

/-- The total deduction applied to the starting score of 100.  The four
penalties mirror the source's independent checks; `longLines.length >
nonEmptyLines.length * 0.3` is embedded as `10 * long > 3 * nonEmpty` and
`avgLineLength > 150` as `150 * count < sum` (false at `count = 0`, exactly
as `NaN > 150` is false). -/
def readabilityPenalty (content : List Char) : Nat :=
  (if 10 * (longLinesOf content).length > 3 * (nonEmptyLinesOf content).length
    then 20 else 0) +
  (if (detectedHeadings content).length = 0 ∧ content.length > 3000
    then 15 else 0) +
  (if 150 * (nonEmptyLinesOf content).length <
      ((nonEmptyLinesOf content).map List.length).sum
    then 15 else 0) +
  (if doubleSpaceRuns content > 20 then 10 else 0)

/-- `analyzeReadability(content)`.  The `Math.max(0, score)` clamp in the
source is vacuous: the four penalties sum to at most 60. -/
def analyzeReadability (content : List Char) : ReadabilityReport :=
  { issues :=
      (if 10 * (longLinesOf content).length > 3 * (nonEmptyLinesOf content).length
        then [(toString (longLinesOf content).length).data ++ str "개의 매우 긴 줄이 감지됨"]
        else []) ++
      (if (detectedHeadings content).length = 0 ∧ content.length > 3000
        then [str "목차/제목이 감지되지 않음"] else []) ++
      (if 150 * (nonEmptyLinesOf content).length <
          ((nonEmptyLinesOf content).map List.length).sum
        then [str "단락 구분이 부족함"] else []) ++
      (if doubleSpaceRuns content > 20 then [str "불필요한 공백이 많음"] else []),
    score := 100 - readabilityPenalty content,
    suggestions :=
      (if 10 * (longLinesOf content).length > 3 * (nonEmptyLinesOf content).length
        then [str "자동 줄바꿈을 활성화하세요"] else []) ++
      (if (detectedHeadings content).length = 0 ∧ content.length > 3000
        then [str "챕터 감지를 활성화하세요"] else []) ++
      (if 150 * (nonEmptyLinesOf content).length <
          ((nonEmptyLinesOf content).map List.length).sum
        then [str "자동 줄바꿈으로 가독성을 개선하세요"] else []) ++
      (if doubleSpaceRuns content > 20 then [str "공백 제거를 활성화하세요"] else []) }

/-- C10: on the empty string the scorer does not fault: the zero-line average
comparison (`NaN > 150` in the source, `150 * 0 < 0` here) fires no penalty
and the result is score 100 with empty issue and suggestion lists. -/
theorem analyzeReadability_empty :
    analyzeReadability [] = ⟨[], 100, []⟩ := by decide

/-! ## C8: appending long lines never raises the score -/

theorem sum_map_length_ge (l : List (List Char)) (h : ∀ x ∈ l, 200 < x.length) :
    201 * l.length ≤ (l.map List.length).sum := by
  induction l with
  | nil => simp
  | cons a t ih =>
    simp only [List.map_cons, List.sum_cons, List.length_cons]
    have ha := h a (by simp)
    have ht := ih (fun x hx => h x (by simp [hx]))
    omega

theorem runsAux_append_newline (A : List Char) :
    ∀ (B : List Char) (p : Char),
      runsAux p (A ++ '\n' :: B) = runsAux p A + runsAux '\n' B := by
  induction A with
  | nil =>
    intro B p
    cases B with
    | nil => simp [runsAux]
    | cons b bs => simp [runsAux]
  | cons a t ih =>
    intro B p
    cases t with
    | nil =>
      cases B with
      | nil => simp [runsAux]
      | cons b bs => simp [runsAux]
    | cons b t2 =>
      simp only [List.cons_append]
      rw [runsAux, runsAux, ← List.cons_append, ih]
      omega

/-- C8: for any document in which at least one heading line is detected,
appending 25 newline-free lines of more than 200 characters each (joined
after a separating newline) never yields a larger readability score. -/
theorem analyzeReadability_monotone (d : List Char) (L : List (List Char))
    (hhead : detectedHeadings d ≠ [])
    (hcount : L.length = 25)
    (hlong : ∀ l ∈ L, 200 < l.length)
    (hnl : ∀ l ∈ L, '\n' ∉ l) :
    (analyzeReadability (d ++ '\n' :: joinLines L)).score ≤
      (analyzeReadability d).score := by
  have hLne : L ≠ [] := by intro h; rw [h] at hcount; simp at hcount
  have hsplit : splitLines (d ++ '\n' :: joinLines L) = splitLines d ++ L := by
    rw [splitLines_append_newline, splitLines_joinLines L hLne hnl]
  have hnonEmpty : nonEmptyLinesOf (d ++ '\n' :: joinLines L) =
      nonEmptyLinesOf d ++ L.filter (fun l => !(jsTrim l).isEmpty) := by
    rw [nonEmptyLinesOf, hsplit, List.filter_append]
    rfl
  have hlongL : longLinesOf (d ++ '\n' :: joinLines L) =
      longLinesOf d ++ L.filter (fun l => !(jsTrim l).isEmpty) := by
    rw [longLinesOf, hnonEmpty, List.filter_append, longLinesOf]
    congr 1
    apply List.filter_eq_self.mpr
    intro a ha
    have haL : a ∈ L := List.mem_of_mem_filter ha
    simpa using hlong a haL
  have hheads : detectedHeadings (d ++ '\n' :: joinLines L) =
      detectedHeadings d ++
        L.filter (fun l => isMdHeadingTest l || (isChapterHeading l).isHeading) := by
    rw [detectedHeadings, hsplit, List.filter_append]
    rfl
  have hsum : 201 * (L.filter (fun l => !(jsTrim l).isEmpty)).length ≤
      ((L.filter (fun l => !(jsTrim l).isEmpty)).map List.length).sum :=
    sum_map_length_ge _ (fun x hx => hlong x (List.mem_of_mem_filter hx))
  have hhlen : (detectedHeadings d).length ≠ 0 := by
    intro h
    exact hhead (List.length_eq_zero.mp h)
  have hpen : readabilityPenalty d ≤ readabilityPenalty (d ++ '\n' :: joinLines L) := by
    have hruns : doubleSpaceRuns (d ++ '\n' :: joinLines L) =
        doubleSpaceRuns d + runsAux '\n' (joinLines L) :=
      runsAux_append_newline d (joinLines L) '\n'
    unfold readabilityPenalty
    rw [hnonEmpty, hlongL, hheads, hruns]
    have h1 :
        (if 10 * (longLinesOf d).length > 3 * (nonEmptyLinesOf d).length
          then 20 else 0) ≤
        (if 10 * ((longLinesOf d) ++
              L.filter (fun l => !(jsTrim l).isEmpty)).length >
            3 * ((nonEmptyLinesOf d) ++
              L.filter (fun l => !(jsTrim l).isEmpty)).length
          then 20 else 0) := by
      rw [List.length_append, List.length_append]
      split_ifs <;> omega
    have h2 :
        (if (detectedHeadings d).length = 0 ∧ d.length > 3000 then 15 else 0) ≤
        (if ((detectedHeadings d) ++
              L.filter (fun l => isMdHeadingTest l ||
                (isChapterHeading l).isHeading)).length = 0 ∧
            (d ++ '\n' :: joinLines L).length > 3000
          then 15 else 0) := by
      rw [if_neg (fun hand => hhlen hand.1)]
      omega
    have h3 :
        (if 150 * (nonEmptyLinesOf d).length <
            ((nonEmptyLinesOf d).map List.length).sum
          then 15 else 0) ≤
        (if 150 * ((nonEmptyLinesOf d) ++
              L.filter (fun l => !(jsTrim l).isEmpty)).length <
            (((nonEmptyLinesOf d) ++
              L.filter (fun l => !(jsTrim l).isEmpty)).map List.length).sum
          then 15 else 0) := by
      rw [List.length_append, List.map_append, List.sum_append]
      split_ifs <;> omega
    have h4 :
        (if doubleSpaceRuns d > 20 then 10 else 0) ≤
        (if doubleSpaceRuns d + runsAux '\n' (joinLines L) > 20 then 10 else 0) := by
      split_ifs <;> omega
    exact Nat.add_le_add (Nat.add_le_add (Nat.add_le_add h1 h2) h3) h4
  simpa [analyzeReadability] using Nat.sub_le_sub_left hpen 100

/-- C8 (witness): a concrete well-headed document and 25 concrete long
lines. -/
theorem analyzeReadability_monotone_example :
    (analyzeReadability
        (str "# Title\nBody text." ++ '\n' ::
          joinLines (List.replicate 25 (List.replicate 201 'x')))).score ≤
      (analyzeReadability (str "# Title\nBody text.")).score := by
  apply analyzeReadability_monotone
  · decide
  · simp
  · intro l hl
    rw [List.eq_of_mem_replicate hl]
    simp
  · intro l hl
    rw [List.eq_of_mem_replicate hl]
    intro hc
    exact absurd (List.eq_of_mem_replicate hc) (by decide)

/-! ## ChunkResultMerger (`mergeChunkResults`)

`Array.prototype.sort` with a numeric comparator is a stable sort
(guaranteed by the ECMAScript specification); any stable sort computes the
same list, and it is modelled here by `List.insertionSort`.  The
`contentTypeCounts` record keeps its string keys in insertion order (the
content-type names are not array indices), modelled by an association list
with append-at-end insertion. -/

/-- The closed content-type union `'fiction' | 'non-fiction' | 'technical'
| 'educational'` (declared in the repository's shared types module). -/
inductive ContentType where
  | fiction
  | nonFiction
  | technical
  | educational
deriving DecidableEq, Fintype

/-- The nested `position` object of an image insertion point (`section` is a
Lean keyword, hence `sectionName`). -/
structure ImagePosition where
  sectionName : List Char
  afterParagraph : Int
  lineNumber : Int
deriving DecidableEq

/-- `ImageInsertionPoint`. -/
structure ImageInsertionPoint where
  id : List Char
  position : ImagePosition
  suggestedType : List Char
  context : List Char
  generatedPrompt : List Char
  approved : Bool
deriving DecidableEq

/-- One chunk's analysis fragment. -/
structure ChunkAnalysis where
  tableOfContents : List TOCEntry
  imagePoints : List ImageInsertionPoint
  contentType : ContentType
deriving DecidableEq

/-- The merged, document-wide analysis. -/
structure ContentAnalysis where
  wordCount : Nat
  estimatedPages : Nat
  contentType : ContentType
  tableOfContents : List TOCEntry
  imagePoints : List ImageInsertionPoint
deriving DecidableEq

/-- `(a, b) => a.position - b.position` — ascending by position. -/
def tocOrder (a b : TOCEntry) : Prop := a.position ≤ b.position

instance : DecidableRel tocOrder := fun _ _ => Int.decLe _ _

instance : IsTotal TOCEntry tocOrder := ⟨fun _ _ => Int.le_total _ _⟩

instance : IsTrans TOCEntry tocOrder := ⟨fun _ _ _ h1 h2 => le_trans h1 h2⟩

/-- `(a, b) => a.position.lineNumber - b.position.lineNumber`. -/
def imgOrder (a b : ImageInsertionPoint) : Prop :=
  a.position.lineNumber ≤ b.position.lineNumber

instance : DecidableRel imgOrder := fun _ _ => Int.decLe _ _

instance : IsTotal ImageInsertionPoint imgOrder := ⟨fun _ _ => Int.le_total _ _⟩

instance : IsTrans ImageInsertionPoint imgOrder := ⟨fun _ _ _ h1 h2 => le_trans h1 h2⟩

/-- `(a, b) => b[1] - a[1]` on `Object.entries` — descending by count. -/
def countOrder (a b : ContentType × Nat) : Prop := b.2 ≤ a.2

instance : DecidableRel countOrder := fun _ _ => Nat.decLe _ _

instance : IsTotal (ContentType × Nat) countOrder := ⟨fun a b => Nat.le_total b.2 a.2⟩

instance : IsTrans (ContentType × Nat) countOrder := ⟨fun _ _ _ h1 h2 => le_trans h2 h1⟩

/-- `contentTypeCounts[t] = (contentTypeCounts[t] || 0) + 1`: bump the entry
for `t`, appending a fresh key at the end on first sight. -/
def bumpCount (al : List (ContentType × Nat)) (t : ContentType) :
    List (ContentType × Nat) :=
  match al with
  | [] => [(t, 1)]
  | (k, n) :: rest => if k = t then (k, n + 1) :: rest else (k, n) :: bumpCount rest t

/-- The `for (const r of results)` counting loop. -/
def buildCounts (types : List ContentType) : List (ContentType × Nat) :=
  types.foldl bumpCount []

/-- `Object.entries(...).sort((a, b) => b[1] - a[1])[0]?.[0] || 'non-fiction'`. -/
def resolveContentType (types : List ContentType) : ContentType :=
  match (List.insertionSort countOrder (buildCounts types)).head? with
  | some p => p.1
  | none => ContentType.nonFiction

/-- `mergeChunkResults(results, totalWordCount)`. -/
def mergeChunkResults (results : List ChunkAnalysis) (totalWordCount : Nat) :
    ContentAnalysis :=
  { wordCount := totalWordCount,
    estimatedPages := (totalWordCount + 249) / 250,
    contentType := resolveContentType (results.map (fun r => r.contentType)),
    tableOfContents :=
      List.insertionSort tocOrder ((results.map (fun r => r.tableOfContents)).flatten),
    imagePoints :=
      List.insertionSort imgOrder ((results.map (fun r => r.imagePoints)).flatten) }

/-! ## C4: shape of the merged analysis -/

/-- The first count-maximal entry of an association list (ties go to the
earlier entry) — what the head of a stable descending sort yields. -/
def firstMax : List (ContentType × Nat) → Option (ContentType × Nat)
  | [] => none
  | a :: t =>
    match firstMax t with
    | none => some a
    | some m => if m.2 ≤ a.2 then some a else some m

theorem firstMax_eq_none_iff (l : List (ContentType × Nat)) :
    firstMax l = none ↔ l = [] := by
  cases l with
  | nil => simp [firstMax]
  | cons a t =>
    rw [firstMax]
    cases firstMax t with
    | none => simp
    | some m =>
      simp only []
      by_cases hle : m.2 ≤ a.2
      · rw [if_pos hle]; simp
      · rw [if_neg hle]; simp

theorem head_insertionSort_eq_firstMax (l : List (ContentType × Nat)) :
    (List.insertionSort countOrder l).head? = firstMax l := by
  induction l with
  | nil => rfl
  | cons a t ih =>
    show (List.orderedInsert countOrder a (List.insertionSort countOrder t)).head? = _
    cases hs : List.insertionSort countOrder t with
    | nil =>
      rw [hs] at ih
      have hft : firstMax t = none := by rw [← ih]; rfl
      rw [firstMax, hft]
      rfl
    | cons b u =>
      rw [hs] at ih
      have hft : firstMax t = some b := by rw [← ih]; rfl
      rw [firstMax, hft, List.orderedInsert]
      simp only []
      by_cases hr : countOrder a b
      · rw [if_pos hr, if_pos (show b.2 ≤ a.2 from hr)]
        rfl
      · rw [if_neg hr, if_neg (show ¬ b.2 ≤ a.2 from hr)]
        rfl

theorem firstMax_spec (l : List (ContentType × Nat)) :
    ∀ m, firstMax l = some m →
      ∃ pre post, l = pre ++ m :: post ∧ ∀ p ∈ pre, p.2 < m.2 := by
  induction l with
  | nil => intro m h; simp [firstMax] at h
  | cons a t ih =>
    intro m h
    rw [firstMax] at h
    cases hft : firstMax t with
    | none =>
      rw [hft] at h
      simp only [] at h
      obtain rfl : a = m := by simpa using h
      exact ⟨[], t, rfl, by simp⟩
    | some mt =>
      rw [hft] at h
      simp only [] at h
      by_cases hle : mt.2 ≤ a.2
      · rw [if_pos hle] at h
        obtain rfl : a = m := by simpa using h
        exact ⟨[], t, rfl, by simp⟩
      · rw [if_neg hle] at h
        obtain rfl : mt = m := by simpa using h
        obtain ⟨pre, post, heq, hlt⟩ := ih mt hft
        refine ⟨a :: pre, post, by rw [heq]; rfl, ?_⟩
        intro p hp
        rcases List.mem_cons.mp hp with h1 | h1
        · rw [h1]; omega
        · exact hlt p h1

theorem firstMax_le (l : List (ContentType × Nat)) :
    ∀ m, firstMax l = some m → ∀ p ∈ l, p.2 ≤ m.2 := by
  induction l with
  | nil => intro m _ p hp; simp at hp
  | cons a t ih =>
    intro m h p hp
    rw [firstMax] at h
    cases hft : firstMax t with
    | none =>
      rw [hft] at h
      simp only [] at h
      obtain rfl : a = m := by simpa using h
      have ht : t = [] := (firstMax_eq_none_iff t).mp hft
      rcases List.mem_cons.mp hp with h1 | h1
      · rw [h1]
      · rw [ht] at h1; simp at h1
    | some mt =>
      rw [hft] at h
      simp only [] at h
      by_cases hle : mt.2 ≤ a.2
      · rw [if_pos hle] at h
        obtain rfl : a = m := by simpa using h
        rcases List.mem_cons.mp hp with h1 | h1
        · rw [h1]
        · exact le_trans (ih mt hft p h1) hle
      · rw [if_neg hle] at h
        obtain rfl : mt = m := by simpa using h
        rcases List.mem_cons.mp hp with h1 | h1
        · rw [h1]; omega
        · exact ih mt hft p h1

theorem firstMax_isSome (l : List (ContentType × Nat)) (h : l ≠ []) :
    ∃ m, firstMax l = some m := by
  cases hf : firstMax l with
  | some m => exact ⟨m, rfl⟩
  | none => exact absurd ((firstMax_eq_none_iff l).mp hf) h

/-- The counting-loop invariant: entry values are occurrence counts of the
consumed prefix, keys are exactly the consumed values, and keys are listed
in first-occurrence order. -/
def CountsInv (consumed : List ContentType) (al : List (ContentType × Nat)) : Prop :=
  (∀ p ∈ al, p.2 = consumed.count p.1) ∧
  (∀ t : ContentType, t ∈ consumed ↔ t ∈ al.map Prod.fst) ∧
  (al.map Prod.fst).Pairwise (fun s u => consumed.indexOf s < consumed.indexOf u)

theorem bumpCount_keys (al : List (ContentType × Nat)) (t : ContentType) :
    (bumpCount al t).map Prod.fst =
      if t ∈ al.map Prod.fst then al.map Prod.fst
      else al.map Prod.fst ++ [t] := by
  induction al with
  | nil => simp [bumpCount]
  | cons q rest ih =>
    obtain ⟨k, n⟩ := q
    by_cases hk : k = t
    · subst hk
      simp [bumpCount]
    · simp only [bumpCount, if_neg hk, List.map_cons]
      rw [ih]
      by_cases hmem : t ∈ rest.map Prod.fst
      · rw [if_pos hmem, if_pos (by simp [hmem])]
      · rw [if_neg hmem,
          if_neg (by simp only [List.map_cons, List.mem_cons]
                     exact fun hc => hc.elim (fun he => hk he.symm) hmem)]
        rfl

theorem bumpCount_mem (al : List (ContentType × Nat)) (t : ContentType)
    (hnd : (al.map Prod.fst).Nodup) :
    ∀ p ∈ bumpCount al t,
      (p.1 ≠ t ∧ p ∈ al) ∨
      (∃ n, p = (t, n + 1) ∧ ((t, n) ∈ al ∨ (n = 0 ∧ t ∉ al.map Prod.fst))) := by
  induction al with
  | nil =>
    intro p hp
    simp only [bumpCount, List.mem_singleton] at hp
    right
    exact ⟨0, by simp [hp], Or.inr ⟨rfl, by simp⟩⟩
  | cons q rest ih =>
    obtain ⟨k, n⟩ := q
    intro p hp
    by_cases hk : k = t
    · subst hk
      rw [bumpCount] at hp
      rw [if_pos rfl] at hp
      rcases List.mem_cons.mp hp with h | h
      · right
        exact ⟨n, by simp [h], Or.inl (by simp)⟩
      · left
        refine ⟨?_, List.mem_cons_of_mem _ h⟩
        intro hpt
        have hmem : k ∈ rest.map Prod.fst := by
          rw [← hpt]
          exact List.mem_map_of_mem Prod.fst h
        exact (List.nodup_cons.mp (by simpa using hnd)).1 hmem
    · simp only [bumpCount, if_neg hk] at hp
      rcases List.mem_cons.mp hp with h | h
      · left
        refine ⟨?_, by rw [h]; exact List.mem_cons_self _ _⟩
        rw [h]
        exact hk
      · rcases ih (by simpa using (List.nodup_cons.mp (by simpa using hnd)).2) p h with
          h1 | ⟨n2, hn2, hcase⟩
        · exact Or.inl ⟨h1.1, List.mem_cons_of_mem _ h1.2⟩
        · right
          refine ⟨n2, hn2, ?_⟩
          rcases hcase with hc | ⟨hc0, hcnot⟩
          · exact Or.inl (List.mem_cons_of_mem _ hc)
          · refine Or.inr ⟨hc0, ?_⟩
            simp only [List.map_cons, List.mem_cons]
            exact fun hc2 => hc2.elim (fun he => hk he.symm) hcnot

theorem countsInv_bump (consumed : List ContentType)
    (al : List (ContentType × Nat)) (t : ContentType)
    (h : CountsInv consumed al) : CountsInv (consumed ++ [t]) (bumpCount al t) := by
  obtain ⟨hval, hmem, hpair⟩ := h
  have hnd : (al.map Prod.fst).Nodup :=
    hpair.imp (fun {a b} hlt he => absurd (he ▸ hlt) (lt_irrefl _))
  refine ⟨?_, ?_, ?_⟩
  · intro p hp
    rcases bumpCount_mem al t hnd p hp with ⟨hne, hpal⟩ | ⟨n, rfl, hc⟩
    · rw [List.count_append, hval p hpal]
      have : ([t].count p.1) = 0 := by
        simp [List.count_singleton]
        exact fun he => hne he.symm
      omega
    · have hcnt : consumed.count t = n := by
        rcases hc with hcal | ⟨h0, hnotk⟩
        · exact (hval (t, n) hcal).symm
        · rw [h0]
          exact List.count_eq_zero.mpr (fun hc2 => hnotk ((hmem t).mp hc2))
      simp only [List.count_append]
      rw [hcnt]
      simp [List.count_singleton]
  · intro u
    rw [bumpCount_keys]
    by_cases hmem2 : t ∈ al.map Prod.fst
    · rw [if_pos hmem2]
      constructor
      · intro hu
        rcases List.mem_append.mp hu with h1 | h1
        · exact (hmem u).mp h1
        · simp at h1
          rw [h1]
          exact hmem2
      · intro hu
        exact List.mem_append.mpr (Or.inl ((hmem u).mpr hu))
    · rw [if_neg hmem2]
      constructor
      · intro hu
        rcases List.mem_append.mp hu with h1 | h1
        · exact List.mem_append.mpr (Or.inl ((hmem u).mp h1))
        · exact List.mem_append.mpr (Or.inr h1)
      · intro hu
        rcases List.mem_append.mp hu with h1 | h1
        · exact List.mem_append.mpr (Or.inl ((hmem u).mpr h1))
        · exact List.mem_append.mpr (Or.inr h1)
  · have hidx : ∀ s ∈ al.map Prod.fst,
        (consumed ++ [t]).indexOf s = consumed.indexOf s := by
      intro s hs
      exact List.indexOf_append_of_mem ((hmem s).mpr hs)
    rw [bumpCount_keys]
    by_cases hmem2 : t ∈ al.map Prod.fst
    · rw [if_pos hmem2]
      refine List.Pairwise.imp_of_mem ?_ hpair
      intro s u hs hu hlt
      rw [hidx s hs, hidx u hu]
      exact hlt
    · rw [if_neg hmem2]
      rw [List.pairwise_append]
      refine ⟨List.Pairwise.imp_of_mem
        (fun {s u} hs hu hlt => by rw [hidx s hs, hidx u hu]; exact hlt) hpair,
        by simp, ?_⟩
      intro s hs u hu
      simp only [List.mem_singleton] at hu
      subst hu
      rw [hidx s hs,
        List.indexOf_append_of_not_mem (fun hc => hmem2 ((hmem u).mp hc))]
      have h1 : consumed.indexOf s < consumed.length :=
        List.indexOf_lt_length.mpr ((hmem s).mpr hs)
      simp only [List.indexOf_cons_self]
      omega

theorem buildCounts_inv (types : List ContentType) :
    CountsInv types (buildCounts types) := by
  suffices h : ∀ (ts consumed : List ContentType) (al : List (ContentType × Nat)),
      CountsInv consumed al → CountsInv (consumed ++ ts) (ts.foldl bumpCount al) by
    have h2 := h types [] [] ⟨by simp, by simp, by simp⟩
    simpa [buildCounts] using h2
  intro ts
  induction ts with
  | nil => intro consumed al h; simpa using h
  | cons t rest ih =>
    intro consumed al h
    have h2 := countsInv_bump consumed al t h
    have h3 := ih (consumed ++ [t]) (bumpCount al t) h2
    simpa [List.append_assoc] using h3

/-- The plurality resolution: the chosen content type occurs in the input,
has maximal occurrence count, and among equally counted values it is the one
whose first occurrence comes earliest. -/
theorem resolveContentType_spec (types : List ContentType) (hne : types ≠ []) :
    resolveContentType types ∈ types ∧
      (∀ t, types.count t ≤ types.count (resolveContentType types)) ∧
      (∀ t, types.count t = types.count (resolveContentType types) →
        types.indexOf (resolveContentType types) ≤ types.indexOf t) := by
  obtain ⟨hval, hmem, hpair⟩ := buildCounts_inv types
  obtain ⟨t0, ht0⟩ := List.exists_mem_of_ne_nil types hne
  have hbne : buildCounts types ≠ [] := by
    intro h
    have hkeys := (hmem t0).mp ht0
    rw [h] at hkeys
    simp at hkeys
  obtain ⟨m, hm⟩ := firstMax_isSome _ hbne
  have hres : resolveContentType types = m.1 := by
    unfold resolveContentType
    rw [head_insertionSort_eq_firstMax, hm]
  obtain ⟨pre, post, heq, hpre⟩ := firstMax_spec _ m hm
  have hmal : m ∈ buildCounts types := by rw [heq]; simp
  have hmval : m.2 = types.count m.1 := hval m hmal
  have hmtypes : m.1 ∈ types :=
    (hmem m.1).mpr (List.mem_map_of_mem Prod.fst hmal)
  rw [hres]
  refine ⟨hmtypes, ?_, ?_⟩
  · intro t
    by_cases ht : t ∈ types
    · obtain ⟨p, hpal, hp1⟩ := List.mem_map.mp ((hmem t).mp ht)
      have hple := firstMax_le _ m hm p hpal
      have hpv := hval p hpal
      rw [hp1] at hpv
      omega
    · have h0 : types.count t = 0 := List.count_eq_zero.mpr ht
      omega
  · intro t hcnt
    by_cases htm : t = m.1
    · rw [htm]
    · have hpos : 0 < types.count m.1 := List.count_pos_iff.mpr hmtypes
      have ht : t ∈ types := List.count_pos_iff.mp (by omega)
      obtain ⟨p, hpal, hp1⟩ := List.mem_map.mp ((hmem t).mp ht)
      have hpv := hval p hpal
      rw [hp1] at hpv
      have hp2 : p.2 = m.2 := by omega
      have hppost : p ∈ post := by
        rw [heq] at hpal
        rcases List.mem_append.mp hpal with h | h
        · exact absurd hp2 (Nat.ne_of_lt (hpre p h))
        · rcases List.mem_cons.mp h with h1 | h1
          · exact absurd (by rw [← hp1, h1]) htm
          · exact h1
      have hpairs := hpair
      rw [heq, List.map_append, List.map_cons, List.pairwise_append] at hpairs
      have hcross := (List.pairwise_cons.mp hpairs.2.1).1
      have hlt : types.indexOf m.1 < types.indexOf t := by
        apply hcross
        rw [← hp1]
        exact List.mem_map_of_mem Prod.fst hppost
      omega

/-- C4: `mergeChunkResults` returns the concatenated chunk TOC entries
sorted ascending by position and the concatenated image points sorted
ascending by line number (each a permutation of the concatenation), and a
content type chosen by plurality with ties resolved in favour of the first
distinct value encountered in chunk order. -/
theorem mergeChunkResults_spec (results : List ChunkAnalysis) (w : Nat)
    (hne : results ≠ []) :
    ((mergeChunkResults results w).tableOfContents).Perm
        ((results.map (fun r => r.tableOfContents)).flatten) ∧
    List.Sorted tocOrder ((mergeChunkResults results w).tableOfContents) ∧
    ((mergeChunkResults results w).imagePoints).Perm
        ((results.map (fun r => r.imagePoints)).flatten) ∧
    List.Sorted imgOrder ((mergeChunkResults results w).imagePoints) ∧
    (mergeChunkResults results w).contentType ∈
        results.map (fun r => r.contentType) ∧
    (∀ t : ContentType,
      (results.map (fun r => r.contentType)).count t ≤
        (results.map (fun r => r.contentType)).count
          (mergeChunkResults results w).contentType) ∧
    (∀ t : ContentType,
      (results.map (fun r => r.contentType)).count t =
          (results.map (fun r => r.contentType)).count
            (mergeChunkResults results w).contentType →
        (results.map (fun r => r.contentType)).indexOf
            (mergeChunkResults results w).contentType ≤
          (results.map (fun r => r.contentType)).indexOf t) := by
  have htne : results.map (fun r => r.contentType) ≠ [] := by
    simpa [List.map_eq_nil_iff] using hne
  obtain ⟨h1, h2, h3⟩ := resolveContentType_spec _ htne
  exact ⟨List.perm_insertionSort _ _, List.sorted_insertionSort _ _,
    List.perm_insertionSort _ _, List.sorted_insertionSort _ _, h1, h2, h3⟩

/-- The concrete fragment list used by the C4 witness. -/
def c4results : List ChunkAnalysis :=
  [⟨[], [], ContentType.fiction⟩, ⟨[], [], ContentType.educational⟩,
   ⟨[], [], ContentType.fiction⟩]

/-- C4 (witness): three concrete fragments with a 2–1 vote. -/
theorem mergeChunkResults_spec_witness :
    ((mergeChunkResults c4results 500).tableOfContents).Perm
        ((c4results.map (fun r => r.tableOfContents)).flatten) ∧
    List.Sorted tocOrder ((mergeChunkResults c4results 500).tableOfContents) ∧
    ((mergeChunkResults c4results 500).imagePoints).Perm
        ((c4results.map (fun r => r.imagePoints)).flatten) ∧
    List.Sorted imgOrder ((mergeChunkResults c4results 500).imagePoints) ∧
    (mergeChunkResults c4results 500).contentType ∈
        c4results.map (fun r => r.contentType) ∧
    (∀ t : ContentType,
      (c4results.map (fun r => r.contentType)).count t ≤
        (c4results.map (fun r => r.contentType)).count
          (mergeChunkResults c4results 500).contentType) ∧
    (∀ t : ContentType,
      (c4results.map (fun r => r.contentType)).count t =
          (c4results.map (fun r => r.contentType)).count
            (mergeChunkResults c4results 500).contentType →
        (c4results.map (fun r => r.contentType)).indexOf
            (mergeChunkResults c4results 500).contentType ≤
          (c4results.map (fun r => r.contentType)).indexOf t) :=
  mergeChunkResults_spec c4results 500 (by simp [c4results])

/-! ## Preprocessor (`preprocessContent`)

Every global regex replace is embedded as a structural scanner (left to
right, greedy, continuing after each match), so that concrete runs reduce in
the kernel. -/

/-- `PreprocessOptions`. -/
structure PreprocessOptions where
  autoLineBreak : Bool
  detectChapters : Bool
  removeExtraSpaces : Bool
  fixPunctuation : Bool
deriving DecidableEq

/-- `replace(/\r\n/g, '\n')`. -/
def replaceCRLF : List Char → List Char
  | '\r' :: '\n' :: t => '\n' :: replaceCRLF t
  | c :: t => c :: replaceCRLF t
  | [] => []

/-- Step 1: line-ending normalization (`\r\n` then bare `\r`). -/
def normalizeNewlines (l : List Char) : List Char :=
  (replaceCRLF l).map (fun c => if c = '\r' then '\n' else c)

/-- The `([^\n]) {2,}` to `$1 ` global replace.  The flag is true while the
scanner is inside the tail of a run it has just collapsed (those spaces are
dropped; a non-space character leaves the state and is scanned normally). -/
def csGo (skip : Bool) : List Char → List Char
  | c :: ' ' :: ' ' :: t =>
    if skip ∧ c = ' ' then csGo true (' ' :: ' ' :: t)
    else if c ≠ '\n' then c :: ' ' :: csGo true t
    else c :: csGo false (' ' :: ' ' :: t)
  | c :: t =>
    if skip ∧ c = ' ' then csGo true t
    else c :: csGo false t
  | [] => []

/-- `replace(/([^\n]) {2,}/g, '$1 ')`. -/
def collapseSpaces (l : List Char) : List Char := csGo false l

/-- The ` +\n` to `\n` global replace: buffer pending spaces and drop them
when an LF follows. -/
def stGo (pending : Nat) : List Char → List Char
  | [] => List.replicate pending ' '
  | c :: t =>
    if c = ' ' then stGo (pending + 1) t
    else if c = '\n' then '\n' :: stGo 0 t
    else List.replicate pending ' ' ++ c :: stGo 0 t

/-- `replace(/ +\n/g, '\n')`. -/
def stripTrailingSpaces (l : List Char) : List Char := stGo 0 l

/-- The `\n{4,}` to `\n\n\n` global replace: an LF run of length `n` becomes
`min n 3` LFs. -/
def nl4Go (pending : Nat) : List Char → List Char
  | [] => List.replicate (min pending 3) '\n'
  | c :: t =>
    if c = '\n' then nl4Go (pending + 1) t
    else List.replicate (min pending 3) '\n' ++ c :: nl4Go 0 t

/-- `replace(/\n{4,}/g, '\n\n\n')`. -/
def collapseNewlines4 (l : List Char) : List Char := nl4Go 0 l

/-- `replace(/([.!?])([A-Z가-힣])/g, '$1 $2')`. -/
def spaceAfterPunct : List Char → List Char
  | c1 :: c2 :: t =>
    if (c1 = '.' ∨ c1 = '!' ∨ c1 = '?') ∧ (isAsciiUpper c2 ∨ isHangul c2) then
      c1 :: ' ' :: c2 :: spaceAfterPunct t
    else c1 :: spaceAfterPunct (c2 :: t)
  | l => l

/-- The `\s+([,.])` to `$1` global replace: whitespace is buffered (in
reverse) and dropped when a comma or period follows. -/
def fpbGo (pending : List Char) : List Char → List Char
  | [] => pending.reverse
  | c :: t =>
    if jsIsSpace c then fpbGo (c :: pending) t
    else if (c = ',' ∨ c = '.') ∧ pending ≠ [] then c :: fpbGo [] t
    else pending.reverse ++ c :: fpbGo [] t

/-- `replace(/\s+([,.])/g, '$1')`. -/
def noSpaceBeforePunct (l : List Char) : List Char := fpbGo [] l

/-- `replace(/([가-힣])\.([가-힣])/g, '$1. $2')`. -/
def hangulPeriodFix : List Char → List Char
  | c1 :: '.' :: c2 :: t =>
    if isHangul c1 ∧ isHangul c2 then c1 :: '.' :: ' ' :: c2 :: hangulPeriodFix t
    else c1 :: hangulPeriodFix ('.' :: c2 :: t)
  | c :: t => c :: hangulPeriodFix t
  | [] => []

/-- The sentence-terminal characters recognised by `detectSentenceEnd`. -/
def sentenceEndChars : List Char := ['.', '!', '?', '。', '！', '？']

/-- The abbreviation list guarding against false sentence ends. -/
def abbrevList : List (List Char) :=
  [str "Mr", str "Mrs", str "Ms", str "Dr", str "Prof", str "Inc", str "Ltd",
   str "etc", str "vs"]

/-- Case-sensitive prefix test used to build `endsWith`. -/
def startsWithChars : List Char → List Char → Bool
  | [], _ => true
  | _ :: _, [] => false
  | p :: ps, c :: cs => (c == p) && startsWithChars ps cs

/-- `String.prototype.endsWith`. -/
def listEndsWith (suf l : List Char) : Bool :=
  startsWithChars suf.reverse l.reverse

/-- `detectSentenceEnd(text, pos)`. -/
def detectSentenceEnd (text : List Char) (pos : Nat) : Bool :=
  match (text.drop pos).head? with
  | none => false
  | some c =>
    if sentenceEndChars.contains c then
      match (text.drop (pos + 1)).head? with
      | some nextChar =>
        if jsIsSpace nextChar then
          !(abbrevList.any (fun a => listEndsWith a ((text.take pos).drop (pos - 10))))
        else false
      | none =>
        !(abbrevList.any (fun a => listEndsWith a ((text.take pos).drop (pos - 10))))
    else false

/-- The character loop of the auto-line-break step: accumulate characters,
and close a segment at a sentence end once at least 40 characters are
buffered; the remainder is pushed trimmed if nonblank. -/
def breakLineGo (text : List Char) : List Char → Nat → List Char → List (List Char)
  | [], _, cur => if (jsTrim cur).isEmpty then [] else [jsTrim cur]
  | ch :: rest, j, cur =>
    if detectSentenceEnd text j ∧ 40 ≤ (cur ++ [ch]).length then
      jsTrim (cur ++ [ch]) :: breakLineGo text rest (j + 1) []
    else breakLineGo text rest (j + 1) (cur ++ [ch])

/-- Per-line processing of step 4: short or blank lines and heading lines
pass through; other lines are re-flowed at sentence boundaries. -/
def processLine (line : List Char) : List (List Char) :=
  if (jsTrim line).length ≤ 80 ∨ (jsTrim line).isEmpty then [line]
  else if (isChapterHeading (jsTrim line)).isHeading then [line]
  else breakLineGo (jsTrim line) (jsTrim line) 0 []

/-- Step 4: sentence-aware line wrapping. -/
def autoLineBreakStep (content : List Char) : List Char :=
  joinLines (((splitLines content).map processLine).flatten)

/-- Step 5: the `detectChapters` loop; `prevEmpty` mirrors the source flag. -/
def detectChaptersGo : List (List Char) → Bool → List (List Char)
  | [], _ => []
  | line :: rest, prevEmpty =>
    if ¬ (jsTrim line).isEmpty ∧ prevEmpty ∧
        (isChapterHeading (jsTrim line)).isHeading ∧
        ¬ (jsTrim line).head? = some '#' then
      [] :: (List.replicate (isChapterHeading (jsTrim line)).level '#' ++
        ' ' :: (isChapterHeading (jsTrim line)).title) :: [] ::
        detectChaptersGo rest true
    else line :: detectChaptersGo rest (jsTrim line).isEmpty

/-- Step 5: convert detected chapter headings to markdown. -/
def detectChaptersStep (content : List Char) : List Char :=
  joinLines (detectChaptersGo (splitLines content) true)

/-- One attempt of the final `\n*(#{1,6}\s+[^\n]+)\n*` match at the current
position: returns the captured group and the remaining input after the
match.  The `\s+` run may include LFs; if the input ends inside that run the
engine backtracks to leave the last non-LF whitespace character (at an index
of at least 1) to `[^\n]+`. -/
def tryHeadingCleanup (l : List Char) : Option (List Char × List Char) :=
  let nlsLen := (l.takeWhile (· = '\n')).length
  let l1 := l.drop nlsLen
  let hs := (l1.takeWhile (· = '#')).length
  if 1 ≤ hs ∧ hs ≤ 6 then
    let l2 := l1.drop hs
    let m := (l2.takeWhile jsIsSpace).length
    if m = 0 then none
    else
      match l2.drop m with
      | c :: rest0 =>
        let body := (c :: rest0).takeWhile (· ≠ '\n')
        let rest1 := (c :: rest0).drop body.length
        let trailLen := (rest1.takeWhile (· = '\n')).length
        some (List.replicate hs '#' ++ l2.take m ++ body, rest1.drop trailLen)
      | [] =>
        match ((List.range l2.length).filter
            (fun j => decide (1 ≤ j) &&
              decide ((l2.drop j).head? ≠ some '\n'))).getLast? with
        | some k =>
          let body := (l2.drop k).takeWhile (· ≠ '\n')
          let rest1 := (l2.drop k).drop body.length
          let trailLen := (rest1.takeWhile (· = '\n')).length
          some (List.replicate hs '#' ++ l2.take k ++ body, rest1.drop trailLen)
        | none => none
  else none

/-- The global scan for the heading-spacing replace.  The fuel starts at the
input length; every match consumes at least one character, so it never runs
out — it only keeps the recursion structural. -/
def hcGo : Nat → List Char → List Char
  | 0, l => l
  | fuel + 1, l =>
    match tryHeadingCleanup l with
    | some (g, rest) => '\n' :: '\n' :: g ++ '\n' :: '\n' :: hcGo fuel rest
    | none =>
      match l with
      | [] => []
      | c :: t => c :: hcGo fuel t

/-- `replace(/\n*(#{1,6}\s+[^\n]+)\n*/g, '\n\n$1\n\n')`. -/
def headingCleanup (l : List Char) : List Char := hcGo l.length l

/-- `replace(/^\n+/, '')`. -/
def stripLeadingNewlines (l : List Char) : List Char := l.dropWhile (· = '\n')

/-- The `\n{3,}` to `\n\n` global replace: an LF run of length `n` becomes
`min n 2` LFs. -/
def nl3Go (pending : Nat) : List Char → List Char
  | [] => List.replicate (min pending 2) '\n'
  | c :: t =>
    if c = '\n' then nl3Go (pending + 1) t
    else List.replicate (min pending 2) '\n' ++ c :: nl3Go 0 t

/-- `replace(/\n{3,}/g, '\n\n')`. -/
def collapseNewlines3 (l : List Char) : List Char := nl3Go 0 l

/-- `preprocessContent(content, options)`. -/
def preprocessContent (content : List Char) (options : PreprocessOptions) : List Char :=
  collapseNewlines3 (stripLeadingNewlines (headingCleanup
    ((fun r4 => if options.detectChapters then detectChaptersStep r4 else r4)
      ((fun r3 => if options.autoLineBreak then autoLineBreakStep r3 else r3)
        ((fun r2 => if options.fixPunctuation then
            hangulPeriodFix (noSpaceBeforePunct (spaceAfterPunct r2)) else r2)
          ((fun r1 => if options.removeExtraSpaces then
              collapseNewlines4 (stripTrailingSpaces (collapseSpaces r1)) else r1)
            (normalizeNewlines content)))))))

/-- `replace(/\r\n/g, ...)` leaves CR-free strings unchanged. -/
theorem replaceCRLF_id (l : List Char) (h : '\r' ∉ l) : replaceCRLF l = l := by
  induction l with
  | nil => rfl
  | cons c t ih =>
    have hc : c ≠ '\r' := fun he => h (he ▸ List.mem_cons_self c t)
    have ht : '\r' ∉ t := fun m => h (List.mem_cons_of_mem _ m)
    simp [replaceCRLF, hc, ih ht]

/-- Step 1 is the identity on CR-free strings. -/
theorem normalizeNewlines_id (l : List Char) (h : '\r' ∉ l) :
    normalizeNewlines l = l := by
  unfold normalizeNewlines
  rw [replaceCRLF_id l h]
  have h2 : ∀ c ∈ l, (if c = '\r' then '\n' else c) = c :=
    fun c hc => if_neg (fun (he : c = '\r') => h (he ▸ hc))
  have h3 : l.map (fun c => if c = '\r' then '\n' else c) = l.map id :=
    List.map_congr_left h2
  rw [h3, List.map_id]

/-- A hash-free string never matches the heading-spacing pattern. -/
theorem tryHeadingCleanup_eq_none (l : List Char) (h : '#' ∉ l) :
    tryHeadingCleanup l = none := by
  have h1 : (l.drop (l.takeWhile (· = '\n')).length).takeWhile (· = '#') = [] := by
    cases heq : (l.drop (l.takeWhile (· = '\n')).length).takeWhile (· = '#') with
    | nil => rfl
    | cons a t =>
      have ha : a ∈ (l.drop (l.takeWhile (· = '\n')).length).takeWhile (· = '#') := by
        rw [heq]; exact List.mem_cons_self a t
      have hpa : a = '#' := by
        have := List.mem_takeWhile_imp ha
        simpa using this
      have hmem : a ∈ l :=
        List.mem_of_mem_drop ((List.takeWhile_sublist _).subset ha)
      exact absurd (hpa ▸ hmem) h
  simp [tryHeadingCleanup, h1]

/-- The heading-cleanup scan is the identity on hash-free strings. -/
theorem hcGo_id (fuel : Nat) (l : List Char) (h : '#' ∉ l)
    (hf : l.length ≤ fuel) : hcGo fuel l = l := by
  induction fuel generalizing l with
  | zero => simp [hcGo]
  | succ n ih =>
    have e : ∀ m : List Char, hcGo (n + 1) m = match tryHeadingCleanup m with
      | some (g, rest) => '\n' :: '\n' :: g ++ '\n' :: '\n' :: hcGo n rest
      | none => match m with
        | [] => []
        | c :: t => c :: hcGo n t := fun m => rfl
    rw [e, tryHeadingCleanup_eq_none l h]
    cases l with
    | nil => rfl
    | cons c t =>
      have ht : '#' ∉ t := fun m => h (List.mem_cons_of_mem _ m)
      have hlen : t.length ≤ n := by
        simp only [List.length_cons] at hf; omega
      show c :: hcGo n t = c :: t
      rw [ih t ht hlen]

/-- The final heading-spacing replace is the identity on hash-free strings. -/
theorem headingCleanup_id (l : List Char) (h : '#' ∉ l) :
    headingCleanup l = l := hcGo_id l.length l h le_rfl

/-- Characters of the LF-collapse output other than LF come from the input. -/
theorem mem_nl3Go (c : Char) (hc : c ≠ '\n') :
    ∀ (p : Nat) (l : List Char), c ∈ nl3Go p l → c ∈ l := by
  intro p l
  induction l generalizing p with
  | nil =>
    intro h
    simp only [nl3Go] at h
    rw [List.mem_replicate] at h
    exact absurd h.2 hc
  | cons d t ih =>
    intro h
    simp only [nl3Go] at h
    by_cases hd : d = '\n'
    · rw [if_pos hd] at h
      exact List.mem_cons_of_mem _ (ih _ h)
    · rw [if_neg hd, List.mem_append] at h
      cases h with
      | inl h => exact absurd (List.eq_of_mem_replicate h) hc
      | inr h =>
        rw [List.mem_cons] at h
        cases h with
        | inl h => exact h ▸ List.mem_cons_self d t
        | inr h => exact List.mem_cons_of_mem _ (ih _ h)

/-- Characters of `collapseNewlines3` other than LF come from the input. -/
theorem mem_collapseNewlines3 (c : Char) (hc : c ≠ '\n') (l : List Char)
    (h : c ∈ collapseNewlines3 l) : c ∈ l := mem_nl3Go c hc 0 l h

/-- `stripLeadingNewlines` only drops characters. -/
theorem mem_stripLead (c : Char) (l : List Char)
    (h : c ∈ stripLeadingNewlines l) : c ∈ l :=
  (List.dropWhile_sublist _).subset h

/-- Three consecutive LFs somewhere in the string. -/
def hasTripleNl : List Char → Bool
  | a :: b :: c :: t =>
    (decide (a = '\n') && decide (b = '\n') && decide (c = '\n')) ||
      hasTripleNl (b :: c :: t)
  | _ => false

/-- Prepending a non-LF character does not create an LF triple. -/
theorem hTnl_cons (c : Char) (hc : c ≠ '\n') (z : List Char) :
    hasTripleNl (c :: z) = hasTripleNl z := by
  match z with
  | [] => rfl
  | [b] => rfl
  | b :: d :: t => simp [hasTripleNl, hc]

/-- One LF before a non-LF character does not create an LF triple. -/
theorem hTnl_nl_cons (c : Char) (hc : c ≠ '\n') (z : List Char) :
    hasTripleNl ('\n' :: c :: z) = hasTripleNl z := by
  match z with
  | [] => rfl
  | b :: t =>
    rw [show hasTripleNl ('\n' :: c :: b :: t) = hasTripleNl (c :: b :: t) from by
      simp [hasTripleNl, hc]]
    exact hTnl_cons c hc (b :: t)

/-- Two LFs before a non-LF character do not create an LF triple. -/
theorem hTnl_nl_nl_cons (c : Char) (hc : c ≠ '\n') (z : List Char) :
    hasTripleNl ('\n' :: '\n' :: c :: z) = hasTripleNl z := by
  rw [show hasTripleNl ('\n' :: '\n' :: c :: z) = hasTripleNl ('\n' :: c :: z) from by
    simp [hasTripleNl, hc]]
  exact hTnl_nl_cons c hc z

/-- At most two LFs have no triple. -/
theorem hTnl_replicate (k : Nat) (h : k ≤ 2) :
    hasTripleNl (List.replicate k '\n') = false := by
  interval_cases k <;> decide

/-- A block of at most two LFs followed by a non-LF character adds no triple. -/
theorem hTnl_block (k : Nat) (hk : k ≤ 2) (c : Char) (hc : c ≠ '\n')
    (z : List Char) :
    hasTripleNl (List.replicate k '\n' ++ c :: z) = hasTripleNl z := by
  interval_cases k
  · exact hTnl_cons c hc z
  · exact hTnl_nl_cons c hc z
  · exact hTnl_nl_nl_cons c hc z

/-- The LF-collapse output never contains three consecutive LFs. -/
theorem nl3Go_noTriple (l : List Char) : ∀ p, hasTripleNl (nl3Go p l) = false := by
  induction l with
  | nil =>
    intro p
    simp only [nl3Go]
    exact hTnl_replicate _ (Nat.min_le_right p 2)
  | cons c t ih =>
    intro p
    simp only [nl3Go]
    by_cases hc : c = '\n'
    · rw [if_pos hc]; exact ih _
    · rw [if_neg hc, hTnl_block (min p 2) (Nat.min_le_right p 2) c hc]
      exact ih 0

/-- When the input does not start with an LF, `nl3Go p` just prepends the
pending LFs, capped at two. -/
theorem nl3Go_split (p : Nat) (t : List Char) (ht : t.head? ≠ some '\n') :
    nl3Go p t = List.replicate (min p 2) '\n' ++ nl3Go 0 t := by
  cases t with
  | nil => simp [nl3Go]
  | cons c t2 =>
    have hc : c ≠ '\n' := by simpa using ht
    simp [nl3Go, hc]

/-- `collapseNewlines3` is the identity on strings with no LF triple. -/
theorem collapseNewlines3_id (l : List Char) (h : hasTripleNl l = false) :
    collapseNewlines3 l = l := by
  suffices H : ∀ n l, l.length ≤ n → hasTripleNl l = false → nl3Go 0 l = l from
    H l.length l le_rfl h
  intro n
  induction n with
  | zero =>
    intro l hl _
    rw [List.eq_nil_of_length_eq_zero (Nat.le_zero.mp hl)]
    simp [nl3Go]
  | succ n ih =>
    intro l hl h
    match l with
    | [] => simp [nl3Go]
    | c :: t =>
      by_cases hc : c = '\n'
      · subst hc
        match t with
        | [] => decide
        | d :: t2 =>
          by_cases hd : d = '\n'
          · subst hd
            match t2 with
            | [] => decide
            | e :: t3 =>
              by_cases he : e = '\n'
              · subst he; simp [hasTripleNl] at h
              · have hl3 : (e :: t3).length ≤ n := by
                  simp only [List.length_cons] at hl ⊢; omega
                have ht3 : hasTripleNl t3 = false := by
                  rwa [hTnl_nl_nl_cons e he] at h
                have ht : hasTripleNl (e :: t3) = false := by
                  rw [hTnl_cons e he]; exact ht3
                calc nl3Go 0 ('\n' :: '\n' :: e :: t3)
                    = nl3Go 2 (e :: t3) := by simp [nl3Go]
                  _ = List.replicate (min 2 2) '\n' ++ nl3Go 0 (e :: t3) :=
                      nl3Go_split 2 _ (by simp [he])
                  _ = '\n' :: '\n' :: (e :: t3) := by rw [ih _ hl3 ht]; rfl
          · have hl2 : (d :: t2).length ≤ n := by
              simp only [List.length_cons] at hl ⊢; omega
            have ht2 : hasTripleNl t2 = false := by
              rwa [hTnl_nl_cons d hd] at h
            have ht : hasTripleNl (d :: t2) = false := by
              rw [hTnl_cons d hd]; exact ht2
            calc nl3Go 0 ('\n' :: d :: t2)
                = nl3Go 1 (d :: t2) := by simp [nl3Go]
              _ = List.replicate (min 1 2) '\n' ++ nl3Go 0 (d :: t2) :=
                  nl3Go_split 1 _ (by simp [hd])
              _ = '\n' :: d :: t2 := by rw [ih _ hl2 ht]; rfl
      · have hl2 : t.length ≤ n := by
          simp only [List.length_cons] at hl; omega
        have ht : hasTripleNl t = false := by rwa [hTnl_cons c hc] at h
        simp [nl3Go, hc, ih t hl2 ht]

/-- The head of `dropWhile (= LF)` is not an LF. -/
theorem dropWhile_nl_head :
    ∀ (l : List Char) c t, l.dropWhile (· = '\n') = c :: t → c ≠ '\n' := by
  intro l
  induction l with
  | nil => intro c t h; simp [List.dropWhile] at h
  | cons a l2 ih =>
    intro c t h
    by_cases ha : a = '\n'
    · rw [List.dropWhile_cons, if_pos (by simp [ha])] at h
      exact ih c t h
    · rw [List.dropWhile_cons, if_neg (by simp [ha])] at h
      injection h with h1 _
      exact h1 ▸ ha

/-- Stripping leading LFs after the LF collapse of a stripped string is a
no-op. -/
theorem stripLead_collapse (y : List Char) :
    stripLeadingNewlines (collapseNewlines3 (stripLeadingNewlines y)) =
      collapseNewlines3 (stripLeadingNewlines y) := by
  cases heq : stripLeadingNewlines y with
  | nil => decide
  | cons c t =>
    have hc : c ≠ '\n' := dropWhile_nl_head y c t heq
    have h2 : collapseNewlines3 (c :: t) = c :: nl3Go 0 t := by
      simp [collapseNewlines3, nl3Go, hc]
    rw [h2]
    simp [stripLeadingNewlines, List.dropWhile_cons, hc]

/-- C5 counterexample: with only chapter detection enabled, a markdown
heading followed directly by a plain chapter heading is converted on the
second pass but not on the first, so `preprocessContent` is not idempotent. -/
theorem preprocessContent_not_idempotent :
    preprocessContent
        (preprocessContent (str "# A\nCHAPTER TWO") ⟨false, true, false, false⟩)
        ⟨false, true, false, false⟩ ≠
      preprocessContent (str "# A\nCHAPTER TWO") ⟨false, true, false, false⟩ := by
  decide

/-- C5 (amended): with all four options disabled, `preprocessContent` is
idempotent on inputs without CR and without hash characters — the pipeline
reduces to the leading-LF strip and the LF-run cap, both of which are
idempotent. -/
theorem preprocessContent_idempotent_plain (x : List Char)
    (hr : '\r' ∉ x) (hh : '#' ∉ x) :
    preprocessContent (preprocessContent x ⟨false, false, false, false⟩)
        ⟨false, false, false, false⟩ =
      preprocessContent x ⟨false, false, false, false⟩ := by
  have hpp : ∀ y : List Char, '\r' ∉ y → '#' ∉ y →
      preprocessContent y ⟨false, false, false, false⟩ =
        collapseNewlines3 (stripLeadingNewlines y) := by
    intro y h1 h2
    have e1 : normalizeNewlines y = y := normalizeNewlines_id y h1
    have e2 : headingCleanup y = y := headingCleanup_id y h2
    simp [preprocessContent, e1, e2]
  have hx := hpp x hr hh
  have hzr : '\r' ∉ collapseNewlines3 (stripLeadingNewlines x) := fun hm =>
    hr (mem_stripLead _ _ (mem_collapseNewlines3 '\r' (by decide) _ hm))
  have hzh : '#' ∉ collapseNewlines3 (stripLeadingNewlines x) := fun hm =>
    hh (mem_stripLead _ _ (mem_collapseNewlines3 '#' (by decide) _ hm))
  have h2 := hpp _ hzr hzh
  rw [hx, h2, stripLead_collapse x]
  exact collapseNewlines3_id _ (nl3Go_noTriple (stripLeadingNewlines x) 0)

/-- C5 witness: the amended idempotence at a concrete plain input. -/
theorem preprocessContent_idempotent_plain_witness :
    '\r' ∉ str "a\n\n\n\nb" ∧ '#' ∉ str "a\n\n\n\nb" ∧
    preprocessContent
        (preprocessContent (str "a\n\n\n\nb") ⟨false, false, false, false⟩)
        ⟨false, false, false, false⟩ =
      preprocessContent (str "a\n\n\n\nb") ⟨false, false, false, false⟩ :=
  ⟨by decide, by decide,
    preprocessContent_idempotent_plain (str "a\n\n\n\nb") (by decide) (by decide)⟩

end Ebookmaker
